import Mathlib

/-!
Verification of the relay engine of BSG-75/qwq (src/index.ts).

The development shallow-embeds the core of the program:

* `StoredMessages` — the per-group two-generation identity cache
  (class `StoredMessages`, src/index.ts lines 53–74);
* `filterChain` / `mapSegment` / `processChain` — the content rewriting
  performed per destination group inside the `GroupMessage` handler
  (lines 109–161);
* `recordMappings` — the mapping-recording loop (lines 172–181);
* `relayEvent` — the whole per-event fan-out (lines 96–186), with the
  outbound `sendGroupMessage` calls modelled by an oracle function.

JavaScript `Map<number, V>` objects are modelled as association lists with
unique keys: `mset` removes any old binding of the key and conses the new
one, `mget` looks the key up, and `Map.size` is the list length (the number
of distinct keys, since keys are unique by construction).  Insertion order
is irrelevant to every operation the program performs on its maps.
-/

namespace Qwq

/-- Lookup in the association-list model of a JS `Map` (i.e. `map.get(k)`,
returning `undefined` as `none`). -/
def mget {α : Type} (m : List (Nat × α)) (k : Nat) : Option α :=
  (m.find? (fun p => p.1 == k)).map (·.2)

/-- Update in the association-list model of a JS `Map` (i.e. `map.set(k, v)`):
any old binding of `k` is removed and the new one added. -/
def mset {α : Type} (m : List (Nat × α)) (k : Nat) (v : α) : List (Nat × α) :=
  (k, v) :: m.filter (fun p => !(p.1 == k))

/-- Key membership, i.e. JS `map.has(k)`. -/
def mhas {α : Type} (m : List (Nat × α)) (k : Nat) : Bool :=
  (mget m k).isSome

/-- The keys of a modelled JS `Map`. -/
def mkeys {α : Type} (m : List (Nat × α)) : List Nat :=
  m.map Prod.fst

theorem mget_mset_self {α : Type} (m : List (Nat × α)) (k : Nat) (v : α) :
    mget (mset m k v) k = some v := by
  simp [mget, mset, List.find?]

theorem mget_mset_ne {α : Type} (m : List (Nat × α)) (k k' : Nat) (v : α)
    (h : k' ≠ k) : mget (mset m k v) k' = mget m k' := by
  simp only [mget, mset]
  have hk : (k == k') = false := by
    simp [Ne.symm h]
  rw [List.find?]
  simp only [hk, cond_false]
  congr 1
  induction m with
  | nil => rfl
  | cons p rest ih =>
    by_cases hp : p.1 = k
    · have : (p.1 == k) = true := by simp [hp]
      simp only [List.filter, this, Bool.not_true]
      rw [List.find?]
      have : (p.1 == k') = false := by simp [hp, Ne.symm h]
      simp only [this, cond_false]
      exact ih
    · have : (p.1 == k) = false := by simp [hp]
      simp only [List.filter, this, Bool.not_false]
      rw [List.find?, List.find?]
      cases hpk : (p.1 == k') with
      | true => simp
      | false => simp only [cond_false]; exact ih

theorem length_mset_le {α : Type} (m : List (Nat × α)) (k : Nat) (v : α) :
    (mset m k v).length ≤ m.length + 1 := by
  simp only [mset, List.length_cons, Nat.add_le_add_iff_right]
  exact List.length_filter_le _ m

theorem mget_some_mem_mkeys {α : Type} {m : List (Nat × α)} {k : Nat} {v : α}
    (h : mget m k = some v) : k ∈ mkeys m := by
  simp only [mget, Option.map_eq_some'] at h
  obtain ⟨p, hp, hv⟩ := h
  have hmem := List.mem_of_find?_eq_some hp
  have hkey := List.find?_some hp
  simp only [beq_iff_eq] at hkey
  subst hkey
  exact List.mem_map_of_mem Prod.fst hmem

/-- `StoredMessage` — `{ id, author }`, the original message a locally
visible id translates to (src/index.ts lines 48–51). -/
structure StoredMessage where
  id : Nat
  author : Nat
deriving DecidableEq, Repr

/-- One generation of the identity cache: a JS `Map<number, StoredMessage>`. -/
abbrev MapN := List (Nat × StoredMessage)

/-- `threshold = 200` (src/index.ts line 54). -/
def threshold : Nat := 200

/-- The two-generation identity cache (class `StoredMessages`,
src/index.ts lines 53–74): an array of two maps plus the index of the
current write generation and of the other one. -/
structure StoredMessages where
  data0 : MapN
  data1 : MapN
  currentIndex : Nat
  otherIndex : Nat
deriving DecidableEq, Repr

namespace StoredMessages

/-- Array access `this.data[i]`. -/
def getData (s : StoredMessages) (i : Nat) : MapN :=
  if i = 0 then s.data0 else s.data1

/-- Replacing `this.data[i]`. -/
def setData (s : StoredMessages) (i : Nat) (m : MapN) : StoredMessages :=
  if i = 0 then { s with data0 := m } else { s with data1 := m }

/-- `get current()` (line 58). -/
def current (s : StoredMessages) : MapN :=
  s.getData s.currentIndex

/-- `get other()` (line 59). -/
def other (s : StoredMessages) : MapN :=
  s.getData s.otherIndex

/-- The initial state: both generations empty, `currentIndex = 0`,
`otherIndex = 1` (lines 55–57). -/
def empty : StoredMessages := ⟨[], [], 0, 1⟩

/-- `add(original, translated)` (lines 61–69): when `current.size`
strictly exceeds the threshold the two indices are swapped and the newly
current buffer is cleared, and then the entry is inserted into the current
buffer. -/
def add (s : StoredMessages) (original : Nat) (translated : StoredMessage) :
    StoredMessages :=
  let s1 :=
    if s.current.length > threshold then
      let s2 := { s with currentIndex := s.otherIndex, otherIndex := s.currentIndex }
      s2.setData s2.currentIndex []
    else s
  s1.setData s1.currentIndex (mset s1.current original translated)

/-- `translate(messageId)` (lines 71–73): look up the current generation,
falling back (`||`) to the other one. -/
def translate (s : StoredMessages) (messageId : Nat) : Option StoredMessage :=
  (mget s.current messageId).orElse (fun _ => mget s.other messageId)

/-- Well-formedness of the index pair: the two indices always name the two
distinct slots of the array.  This holds initially and is preserved by the
swap in `add`. -/
def WFI (s : StoredMessages) : Prop :=
  (s.currentIndex = 0 ∧ s.otherIndex = 1) ∨ (s.currentIndex = 1 ∧ s.otherIndex = 0)

instance (s : StoredMessages) : Decidable (WFI s) := by
  unfold WFI
  infer_instance

theorem wfi_empty : WFI empty := Or.inl ⟨rfl, rfl⟩

/-- Characterization of `add` when no rotation triggers. -/
theorem add_no_rot {s : StoredMessages} (h : WFI s) {k : Nat} {v : StoredMessage}
    (hs : ¬ s.current.length > threshold) :
    (s.add k v).current = mset s.current k v ∧
    (s.add k v).other = s.other ∧
    (s.add k v).currentIndex = s.currentIndex ∧
    (s.add k v).otherIndex = s.otherIndex := by
  have hadd : s.add k v = s.setData s.currentIndex (mset s.current k v) := by
    simp only [add]
    rw [if_neg hs]
  rcases h with ⟨h0, h1⟩ | ⟨h0, h1⟩ <;>
    simp [hadd, current, other, getData, setData, h0, h1]

/-- Characterization of `add` when rotation triggers: the indices swap, the
newly current generation is cleared and receives just the new entry, and
the previously current generation becomes the other one. -/
theorem add_rot {s : StoredMessages} (h : WFI s) {k : Nat} {v : StoredMessage}
    (hs : s.current.length > threshold) :
    (s.add k v).current = [(k, v)] ∧
    (s.add k v).other = s.current ∧
    (s.add k v).currentIndex = s.otherIndex ∧
    (s.add k v).otherIndex = s.currentIndex := by
  have hadd : s.add k v =
      (let s2 := { s with currentIndex := s.otherIndex, otherIndex := s.currentIndex }
       let s1 := s2.setData s2.currentIndex []
       s1.setData s1.currentIndex (mset s1.current k v)) := by
    simp only [add]
    rw [if_pos hs]
  rcases h with ⟨h0, h1⟩ | ⟨h0, h1⟩ <;>
    simp [hadd, current, other, getData, setData, h0, h1, mset]

theorem wfi_add {s : StoredMessages} (h : WFI s) (k : Nat) (v : StoredMessage) :
    WFI (s.add k v) := by
  by_cases hs : s.current.length > threshold
  · obtain ⟨-, -, h2, h3⟩ := add_rot h (k := k) (v := v) hs
    rcases h with ⟨h0, h1⟩ | ⟨h0, h1⟩
    · exact Or.inr ⟨by rw [h2, h1], by rw [h3, h0]⟩
    · exact Or.inl ⟨by rw [h2, h1], by rw [h3, h0]⟩
  · obtain ⟨-, -, h2, h3⟩ := add_no_rot h (k := k) (v := v) hs
    rcases h with ⟨h0, h1⟩ | ⟨h0, h1⟩
    · exact Or.inl ⟨by rw [h2, h0], by rw [h3, h1]⟩
    · exact Or.inr ⟨by rw [h2, h0], by rw [h3, h1]⟩

theorem translate_eq_of_current {s : StoredMessages} {k : Nat} {v : StoredMessage}
    (h : mget s.current k = some v) : s.translate k = some v := by
  simp [translate, h, Option.orElse]

theorem translate_eq_of_current_none {s : StoredMessages} {k : Nat}
    (h : mget s.current k = none) : s.translate k = mget s.other k := by
  simp [translate, h, Option.orElse]

end StoredMessages

/-- `KeyLast l k v` states that the last entry of the batch `l` carrying
key `k` has value `v`. -/
inductive KeyLast : List (Nat × StoredMessage) → Nat → StoredMessage → Prop
  | head (k : Nat) (v : StoredMessage) (rest : List (Nat × StoredMessage))
      (h : k ∉ rest.map Prod.fst) : KeyLast ((k, v) :: rest) k v
  | tail (p : Nat × StoredMessage) {rest : List (Nat × StoredMessage)}
      {k : Nat} {v : StoredMessage}
      (h : KeyLast rest k v) : KeyLast (p :: rest) k v

theorem keyLast_of_mem_keys {l : List (Nat × StoredMessage)} {k : Nat}
    (h : k ∈ l.map Prod.fst) : ∃ v, KeyLast l k v := by
  induction l with
  | nil => simp at h
  | cons p rest ih =>
    by_cases hr : k ∈ rest.map Prod.fst
    · obtain ⟨v, hv⟩ := ih hr
      exact ⟨v, KeyLast.tail p hv⟩
    · simp only [List.map_cons, List.mem_cons] at h
      rcases h with h | h
      · obtain ⟨k', v'⟩ := p
        simp only at h
        subst h
        exact ⟨v', KeyLast.head _ _ _ hr⟩
      · exact absurd h hr

theorem keyLast_mem {l : List (Nat × StoredMessage)} {k : Nat} {v : StoredMessage}
    (h : KeyLast l k v) : (k, v) ∈ l := by
  induction h with
  | head k v rest h => exact List.mem_cons_self _ _
  | tail p h ih => exact List.mem_cons_of_mem p ih

namespace StoredMessages

/-- A batch of `add` calls, executed in order. -/
def addAll (s : StoredMessages) (l : List (Nat × StoredMessage)) : StoredMessages :=
  l.foldl (fun s p => s.add p.1 p.2) s

theorem addAll_nil (s : StoredMessages) : s.addAll [] = s := rfl

theorem addAll_cons (s : StoredMessages) (k : Nat) (v : StoredMessage)
    (rest : List (Nat × StoredMessage)) :
    s.addAll ((k, v) :: rest) = (s.add k v).addAll rest := rfl

theorem addAll_cons' (s : StoredMessages) (p : Nat × StoredMessage)
    (rest : List (Nat × StoredMessage)) :
    s.addAll (p :: rest) = (s.add p.1 p.2).addAll rest := rfl

/-- When the batch is small enough never to trigger a rotation, the other
generation and the indices are untouched, the current generation grows by at
most the batch length, old keys keep their bindings and every key of the
batch ends bound to its last value. -/
theorem addAll_no_rot {s : StoredMessages} (h : WFI s)
    {l : List (Nat × StoredMessage)}
    (hlen : s.current.length + l.length ≤ threshold + 1) :
    (s.addAll l).currentIndex = s.currentIndex ∧
    (s.addAll l).otherIndex = s.otherIndex ∧
    (s.addAll l).other = s.other ∧
    (s.addAll l).current.length ≤ s.current.length + l.length ∧
    (∀ k, k ∉ l.map Prod.fst → mget (s.addAll l).current k = mget s.current k) ∧
    (∀ k v, KeyLast l k v → mget (s.addAll l).current k = some v) := by
  induction l generalizing s with
  | nil =>
    refine ⟨rfl, rfl, rfl, by simp [addAll], fun k _ => rfl, fun k v hkl => ?_⟩
    cases hkl
  | cons p rest ih =>
    obtain ⟨k1, v1⟩ := p
    simp only [List.length_cons] at hlen
    have hnorot : ¬ s.current.length > threshold := by omega
    obtain ⟨hc, ho, hci, hoi⟩ := add_no_rot h hnorot (k := k1) (v := v1)
    have hwf1 : WFI (s.add k1 v1) := wfi_add h k1 v1
    have hmlen := length_mset_le s.current k1 v1
    have hlen1 : (s.add k1 v1).current.length + rest.length ≤ threshold + 1 := by
      rw [hc]; omega
    have hfold := addAll_cons s k1 v1 rest
    obtain ⟨i1, i2, i3, i4, i5, i6⟩ := ih hwf1 hlen1
    refine ⟨by rw [hfold, i1, hci], by rw [hfold, i2, hoi], by rw [hfold, i3, ho],
      ?_, ?_, ?_⟩
    · rw [hfold]
      rw [hc] at i4
      simp only [List.length_cons]
      omega
    · intro k hk
      simp only [List.map_cons, List.mem_cons, not_or] at hk
      rw [hfold, i5 k hk.2, hc, mget_mset_ne _ _ _ _ hk.1]
    · intro k v hkl
      cases hkl with
      | head _ _ _ hnot =>
        rw [hfold, i5 _ hnot, hc, mget_mset_self]
      | tail _ h' =>
        rw [hfold]
        exact i6 _ _ h'

/-- A batch of at most `threshold + 1` adds triggers at most one rotation,
so every key inserted during the batch is still reachable through
`translate` afterwards (with its last value), and keys of the starting
current generation that the batch does not touch stay reachable too. -/
theorem addAll_translate {s : StoredMessages} (h : WFI s)
    {l : List (Nat × StoredMessage)} (hlen : l.length ≤ threshold + 1) :
    (∀ k v, mget s.current k = some v → k ∉ l.map Prod.fst →
      (s.addAll l).translate k = some v) ∧
    (∀ k v, KeyLast l k v → (s.addAll l).translate k = some v) := by
  induction l generalizing s with
  | nil =>
    constructor
    · intro k v hk _
      exact translate_eq_of_current hk
    · intro k v hkl
      cases hkl
  | cons p rest ih =>
    obtain ⟨k1, v1⟩ := p
    simp only [List.length_cons] at hlen
    have hfold := addAll_cons s k1 v1 rest
    have hwf1 : WFI (s.add k1 v1) := wfi_add h k1 v1
    by_cases hrot : s.current.length > threshold
    · obtain ⟨hc, ho, hci, hoi⟩ := add_rot h hrot (k := k1) (v := v1)
      have hlen1 : (s.add k1 v1).current.length + rest.length ≤ threshold + 1 := by
        rw [hc]; simp; omega
      obtain ⟨n1, n2, n3, n4, n5, n6⟩ := addAll_no_rot hwf1 hlen1
      constructor
      · intro k v hk hmem
        simp only [List.map_cons, List.mem_cons, not_or] at hmem
        have hcur : mget ((s.add k1 v1).addAll rest).current k = none := by
          rw [n5 k hmem.2, hc]
          have : (k1 == k) = false := by simp [Ne.symm hmem.1]
          simp [mget, List.find?, this]
        rw [hfold, translate_eq_of_current_none hcur, n3, ho]
        exact hk
      · intro k v hkl
        cases hkl with
        | head _ _ _ hnot =>
          have hcur : mget ((s.add k1 v1).addAll rest).current k1 = some v1 := by
            rw [n5 _ hnot, hc]
            simp [mget, List.find?]
          rw [hfold]
          exact translate_eq_of_current hcur
        | tail _ h' =>
          rw [hfold]
          exact translate_eq_of_current (n6 _ _ h')
    · obtain ⟨hc, ho, hci, hoi⟩ := add_no_rot h hrot (k := k1) (v := v1)
      have hlen1 : rest.length ≤ threshold + 1 := by omega
      obtain ⟨m1, m2⟩ := ih hwf1 hlen1
      constructor
      · intro k v hk hmem
        simp only [List.map_cons, List.mem_cons, not_or] at hmem
        rw [hfold]
        refine m1 k v ?_ hmem.2
        rw [hc, mget_mset_ne _ _ _ _ hmem.1]
        exact hk
      · intro k v hkl
        cases hkl with
        | head _ _ _ hnot =>
          rw [hfold]
          refine m1 _ _ ?_ hnot
          rw [hc, mget_mset_self]
        | tail _ h' =>
          rw [hfold]
          exact m2 _ _ h'

/-- Adding under a different key never invents a binding: whatever
`translate` returns afterwards for the untouched key was already returned
before (the binding may only survive or be evicted). -/
theorem translate_add_of_ne {s : StoredMessages} (h : WFI s) {k k' : Nat}
    {v w : StoredMessage} (hne : k' ≠ k)
    (hw : (s.add k v).translate k' = some w) : s.translate k' = some w := by
  by_cases hrot : s.current.length > threshold
  · obtain ⟨hc, ho, -, -⟩ := add_rot h hrot (k := k) (v := v)
    have hcur : mget (s.add k v).current k' = none := by
      rw [hc]
      have : (k == k') = false := by simp [Ne.symm hne]
      simp [mget, List.find?, this]
    rw [translate_eq_of_current_none hcur, ho] at hw
    exact translate_eq_of_current hw
  · obtain ⟨hc, ho, -, -⟩ := add_no_rot h hrot (k := k) (v := v)
    unfold translate at hw ⊢
    rw [hc, mget_mset_ne _ _ _ _ hne, ho] at hw
    exact hw

/-- Batch version of `translate_add_of_ne`: a batch never invents a binding
for a key it does not touch. -/
theorem addAll_translate_of_not_mem {s : StoredMessages} (h : WFI s)
    {l : List (Nat × StoredMessage)} {k : Nat} (hk : k ∉ l.map Prod.fst)
    {w : StoredMessage} (hw : (s.addAll l).translate k = some w) :
    s.translate k = some w := by
  induction l generalizing s with
  | nil => exact hw
  | cons p rest ih =>
    simp only [List.map_cons, List.mem_cons, not_or] at hk
    have hwf1 : WFI (s.add p.1 p.2) := wfi_add h p.1 p.2
    rw [addAll_cons'] at hw
    exact translate_add_of_ne h hk.1 (ih hwf1 hk.2 hw)

theorem wfi_addAll {s : StoredMessages} (h : WFI s)
    (l : List (Nat × StoredMessage)) : WFI (s.addAll l) := by
  induction l generalizing s with
  | nil => exact h
  | cons p rest ih =>
    rw [addAll_cons']
    exact ih (wfi_add h p.1 p.2)

/-- The structural invariant of the cache: well-formed indices and both
generations holding at most `threshold + 1` entries. -/
def INV (s : StoredMessages) : Prop :=
  WFI s ∧ s.current.length ≤ threshold + 1 ∧ s.other.length ≤ threshold + 1

theorem inv_empty : INV empty :=
  ⟨wfi_empty, by simp [empty, current, other, getData, threshold],
    by simp [empty, current, other, getData, threshold]⟩

theorem inv_add {s : StoredMessages} (h : INV s) (k : Nat) (v : StoredMessage) :
    INV (s.add k v) := by
  obtain ⟨hwf, hcl, hol⟩ := h
  refine ⟨wfi_add hwf k v, ?_, ?_⟩
  · by_cases hrot : s.current.length > threshold
    · obtain ⟨hc, -, -, -⟩ := add_rot hwf hrot (k := k) (v := v)
      rw [hc]
      simp [threshold]
    · obtain ⟨hc, -, -, -⟩ := add_no_rot hwf hrot (k := k) (v := v)
      rw [hc]
      have := length_mset_le s.current k v
      omega
  · by_cases hrot : s.current.length > threshold
    · obtain ⟨-, ho, -, -⟩ := add_rot hwf hrot (k := k) (v := v)
      rw [ho]; exact hcl
    · obtain ⟨-, ho, -, -⟩ := add_no_rot hwf hrot (k := k) (v := v)
      rw [ho]; exact hol

theorem inv_addAll {s : StoredMessages} (h : INV s)
    (l : List (Nat × StoredMessage)) : INV (s.addAll l) := by
  induction l generalizing s with
  | nil => exact h
  | cons p rest ih =>
    rw [addAll_cons']
    exact ih (inv_add h p.1 p.2)

/-- The set of keys held by either generation: `translate` can only answer
for keys in this set. -/
def keyFinset (s : StoredMessages) : Finset Nat :=
  (mkeys s.current ++ mkeys s.other).toFinset

theorem card_keyFinset_le (s : StoredMessages) :
    (keyFinset s).card ≤ s.current.length + s.other.length := by
  calc (keyFinset s).card ≤ (mkeys s.current ++ mkeys s.other).length :=
        (mkeys s.current ++ mkeys s.other).toFinset_card_le
    _ = s.current.length + s.other.length := by simp [mkeys]

theorem mem_keyFinset_of_translate {s : StoredMessages} {k : Nat}
    (h : (s.translate k).isSome) : k ∈ keyFinset s := by
  unfold translate at h
  simp only [keyFinset, List.mem_toFinset, List.mem_append]
  cases hc : mget s.current k with
  | some v => exact Or.inl (mget_some_mem_mkeys hc)
  | none =>
    rw [hc] at h
    simp only [Option.orElse] at h
    cases ho : mget s.other k with
    | some v => exact Or.inr (mget_some_mem_mkeys ho)
    | none => rw [ho] at h; simp at h

/-- `add` rotates the generations precisely when the size of the current
generation already strictly exceeds the threshold when `add` begins. -/
theorem add_rotates_iff {s : StoredMessages} (h : WFI s) (k : Nat)
    (v : StoredMessage) :
    (s.add k v).currentIndex ≠ s.currentIndex ↔ s.current.length > threshold := by
  have hne : s.otherIndex ≠ s.currentIndex := by
    rcases h with ⟨h0, h1⟩ | ⟨h0, h1⟩ <;> simp [h0, h1]
  constructor
  · intro hchg
    by_contra hrot
    obtain ⟨-, -, hci, -⟩ := add_no_rot h hrot (k := k) (v := v)
    exact hchg hci
  · intro hrot
    obtain ⟨-, -, hci, -⟩ := add_rot h hrot (k := k) (v := v)
    rw [hci]
    exact hne

end StoredMessages

/-- Member-list snapshot of a group: a JS `Map<number, string>` from user
id to display name (built at startup from `memberList`, lines 80–90). -/
abbrev MapS := List (Nat × String)

/-- A message-chain segment, as far as the rewriter distinguishes them:
the leading `Source` segment carries the inbound message id; `At` is a
mention with a target id and an embedded display text; `Quote` references
a message id; `Plain` is text; every other segment kind is opaque and
passes through unchanged. -/
inductive Segment where
  | Source (id : Nat)
  | At (target : Nat) (display : String)
  | Quote (id : Nat)
  | Plain (text : String)
  | Other (kind : Nat)
deriving DecidableEq, Repr

/-- Whether a segment is a `Quote` segment. -/
def Segment.isQuoteSeg : Segment → Bool
  | .Quote _ => true
  | _ => false

/-- Whether a segment is an `At` segment. -/
def Segment.isAtSeg : Segment → Bool
  | .At _ _ => true
  | _ => false

/-- Whether a segment is an `At` segment targeting the given account. -/
def Segment.isAtOf (who : Nat) : Segment → Bool
  | .At target _ => target == who
  | _ => false

/-- JS `x || y` where `x` is a possibly-undefined number: both `undefined`
and `0` are falsy. -/
def jsOrNat (o : Option Nat) (d : Nat) : Nat :=
  match o with
  | some n => if n = 0 then d else n
  | none => d

/-- The name-search loop of the mention downgrade (src/index.ts lines
148–155): scan the member snapshots in order and stop at the first truthy
display name; a missing key — and also an empty name, falsy in JS — is
skipped. -/
def lookupName (maps : List MapS) (target : Nat) : Option String :=
  match maps with
  | [] => none
  | m :: rest =>
    match mget m target with
    | some s => if s = "" then lookupName rest target else some s
    | none => lookupName rest target

/-- The `.map` body of the rewriter (src/index.ts lines 127–161): rewrite
one kept segment for one destination group, given the final resolved
quote, the destination's member snapshot, the source group's snapshot (as
found — `originalGroup` may in principle be absent) and all configured
groups' snapshots in configuration order. -/
def mapSegment (qq : Nat) (quote : Option StoredMessage) (members : MapS)
    (originalMembers : Option MapS) (allMembers : List MapS) :
    Segment → Segment
  | .At target display =>
    let t := if target == qq then jsOrNat (quote.map (·.author)) qq else target
    let sameAsQuoteAuthor : Bool :=
      match quote with
      | some st => t == st.author
      | none => false
    if !sameAsQuoteAuthor || !(mhas members t) then
      let searchFrom :=
        (match originalMembers with
         | some om => [members, om]
         | none => [members]) ++ allMembers
      .Plain ("@" ++ ((lookupName searchFrom t).getD display))
    else
      .At t display
  | s => s

/-- The `.filter` body of the rewriter (src/index.ts lines 112–126),
threading the mutable `quote` and `atMeCounter` through the chain in
order; returns the kept segments and the final quote. -/
def filterChain (stored : StoredMessages) (qq : Nat) :
    List Segment → Option StoredMessage → Nat →
    List Segment × Option StoredMessage
  | [], quote, _ => ([], quote)
  | .At target display :: rest, quote, atMeCounter =>
    if quote.isSome && (target == qq) then
      if atMeCounter == 0 then
        let r := filterChain stored qq rest quote (atMeCounter + 1)
        (.At target display :: r.1, r.2)
      else
        filterChain stored qq rest quote (atMeCounter + 1)
    else
      let r := filterChain stored qq rest quote atMeCounter
      (.At target display :: r.1, r.2)
  | .Quote id :: rest, quote, atMeCounter =>
    filterChain stored qq rest ((stored.translate id).orElse (fun _ => quote))
      atMeCounter
  | seg :: rest, quote, atMeCounter =>
    let r := filterChain stored qq rest quote atMeCounter
    (seg :: r.1, r.2)

/-- The whole per-destination rewrite (filter then map), as run by the
`GroupMessage` handler for one destination group: returns the outbound
chain and the resolved quote. -/
def processChain (stored : StoredMessages) (qq : Nat) (members : MapS)
    (originalMembers : Option MapS) (allMembers : List MapS)
    (chain : List Segment) : List Segment × Option StoredMessage :=
  let fr := filterChain stored qq chain none 0
  (fr.1.map (mapSegment qq fr.2 members originalMembers allMembers), fr.2)

/-- The quote-resolution recurrence on its own: fold over the chain,
updating the quote at each `Quote` segment by `translate(id) || quote`. -/
def resolveQuotesFrom (stored : StoredMessages) (q0 : Option StoredMessage) :
    List Segment → Option StoredMessage
  | [] => q0
  | .Quote id :: rest =>
    resolveQuotesFrom stored ((stored.translate id).orElse (fun _ => q0)) rest
  | .Source _ :: rest => resolveQuotesFrom stored q0 rest
  | .At _ _ :: rest => resolveQuotesFrom stored q0 rest
  | .Plain _ :: rest => resolveQuotesFrom stored q0 rest
  | .Other _ :: rest => resolveQuotesFrom stored q0 rest

/-- Quote resolution of a whole chain starting from no quote. -/
def resolveQuotes (stored : StoredMessages) (chain : List Segment) :
    Option StoredMessage :=
  resolveQuotesFrom stored none chain

theorem isSome_orElse_of_isSome {o q0 : Option StoredMessage}
    (h : q0.isSome = true) : (o.orElse (fun _ => q0)).isSome = true := by
  cases o <;> simp [Option.orElse, h]

/-- The final quote computed by the filter pass is exactly the quote
fold: the mention handling never touches it. -/
theorem filterChain_snd (stored : StoredMessages) (qq : Nat)
    (chain : List Segment) :
    ∀ q0 c, (filterChain stored qq chain q0 c).2 =
      resolveQuotesFrom stored q0 chain := by
  induction chain with
  | nil => intro q0 c; rfl
  | cons seg rest ih =>
    intro q0 c
    cases seg with
    | At target display =>
      simp only [filterChain, resolveQuotesFrom]
      by_cases h1 : (q0.isSome && (target == qq)) = true
      · rw [if_pos h1]
        by_cases h2 : (c == 0) = true
        · rw [if_pos h2]; exact ih q0 (c + 1)
        · rw [if_neg h2]; exact ih q0 (c + 1)
      · rw [if_neg h1]; exact ih q0 c
    | Source id => exact ih q0 c
    | Quote id => exact ih _ c
    | Plain t => exact ih q0 c
    | Other k => exact ih q0 c

/-- No `Quote` segment survives the filter pass. -/
theorem filterChain_kept_not_quote (stored : StoredMessages) (qq : Nat)
    (chain : List Segment) :
    ∀ q0 c seg, seg ∈ (filterChain stored qq chain q0 c).1 →
      seg.isQuoteSeg = false := by
  induction chain with
  | nil => intro q0 c seg h; simp [filterChain] at h
  | cons s rest ih =>
    intro q0 c seg h
    cases s with
    | At target display =>
      simp only [filterChain] at h
      by_cases h1 : (q0.isSome && (target == qq)) = true
      · rw [if_pos h1] at h
        by_cases h2 : (c == 0) = true
        · rw [if_pos h2] at h
          simp only [List.mem_cons] at h
          rcases h with h | h
          · subst h; rfl
          · exact ih q0 (c + 1) seg h
        · rw [if_neg h2] at h
          exact ih q0 (c + 1) seg h
      · rw [if_neg h1] at h
        simp only [List.mem_cons] at h
        rcases h with h | h
        · subst h; rfl
        · exact ih q0 c seg h
    | Source id =>
      simp only [filterChain, List.mem_cons] at h
      rcases h with h | h
      · subst h; rfl
      · exact ih q0 c seg h
    | Quote id =>
      exact ih _ c seg h
    | Plain t =>
      simp only [filterChain, List.mem_cons] at h
      rcases h with h | h
      · subst h; rfl
      · exact ih q0 c seg h
    | Other k =>
      simp only [filterChain, List.mem_cons] at h
      rcases h with h | h
      · subst h; rfl
      · exact ih q0 c seg h

/-- The mention rewrite never produces a `Quote` segment from a
non-`Quote` segment. -/
theorem mapSegment_not_quote (qq : Nat) (quote : Option StoredMessage)
    (members : MapS) (om : Option MapS) (all : List MapS) (seg : Segment)
    (h : seg.isQuoteSeg = false) :
    (mapSegment qq quote members om all seg).isQuoteSeg = false := by
  cases seg with
  | At target display =>
    simp only [mapSegment]
    split <;> split <;> rfl
  | Quote id => exact h
  | Source id => rfl
  | Plain t => rfl
  | Other k => rfl

/-- With no resolved quote, the mention rewrite downgrades every
at-mention to plain text; nothing it returns is a live mention. -/
theorem mapSegment_none_not_at (qq : Nat) (members : MapS) (om : Option MapS)
    (all : List MapS) (seg : Segment) (h : seg.isAtSeg = false ∨ True) :
    (mapSegment qq none members om all seg).isAtSeg = false := by
  cases seg with
  | At target display =>
    simp [mapSegment, Segment.isAtSeg]
  | Quote id => rfl
  | Source id => rfl
  | Plain t => rfl
  | Other k => rfl

/-- With no resolved quote, an at-mention becomes exactly the plain-text
`@name` produced by the name search (a self-mention is first retargeted to
`qq` itself, since `quote?.author || qq` is `qq`). -/
theorem mapSegment_none_at_eq (qq : Nat) (members : MapS) (om : Option MapS)
    (all : List MapS) (target : Nat) (display : String) :
    mapSegment qq none members om all (.At target display) =
      .Plain ("@" ++ ((lookupName
        ((match om with | some o => [members, o] | none => [members]) ++ all)
        (if target == qq then qq else target)).getD display)) := by
  simp [mapSegment, jsOrNat]

theorem resolveQuotesFrom_append (stored : StoredMessages)
    (l1 l2 : List Segment) :
    ∀ q0, resolveQuotesFrom stored q0 (l1 ++ l2) =
      resolveQuotesFrom stored (resolveQuotesFrom stored q0 l1) l2 := by
  induction l1 with
  | nil => intro q0; rfl
  | cons s rest ih =>
    intro q0
    cases s with
    | At target display => exact ih q0
    | Source id => exact ih q0
    | Quote id => exact ih _
    | Plain t => exact ih q0
    | Other k => exact ih q0

theorem resolveQuotesFrom_unresolved (stored : StoredMessages)
    (l : List Segment)
    (h : ∀ id, Segment.Quote id ∈ l → stored.translate id = none) :
    ∀ q0, resolveQuotesFrom stored q0 l = q0 := by
  induction l with
  | nil => intro q0; rfl
  | cons s rest ih =>
    intro q0
    have h' : ∀ id, Segment.Quote id ∈ rest → stored.translate id = none :=
      fun id hid => h id (List.mem_cons_of_mem _ hid)
    cases s with
    | At target display => exact ih h' q0
    | Source id => exact ih h' q0
    | Quote id =>
      have hid := h id (List.mem_cons_self _ _)
      simp only [resolveQuotesFrom, hid, Option.orElse]
      exact ih h' q0
    | Plain t => exact ih h' q0
    | Other k => exact ih h' q0

/-- A snapshot yielding no truthy name for the target can be dropped from
the search list without changing the outcome of the name search. -/
theorem lookupName_skip (a : MapS) (t : Nat)
    (ha : mget a t = none ∨ mget a t = some "") :
    ∀ l1 l2 : List MapS, lookupName (l1 ++ a :: l2) t = lookupName (l1 ++ l2) t := by
  intro l1
  induction l1 with
  | nil =>
    intro l2
    rcases ha with ha | ha <;> simp [lookupName, ha]
  | cons b l1 ih =>
    intro l2
    simp only [List.cons_append, lookupName]
    cases hb : mget b t with
    | some s =>
      by_cases hs : s = ""
      · simp only [if_pos hs]
        exact ih l2
      · simp only [if_neg hs]
    | none => exact ih l2

/-- A snapshot already present earlier in the search list can be dropped
from the tail without changing the outcome of the name search. -/
theorem lookupName_dup (a : MapS) (t : Nat) :
    ∀ l1 l2 : List MapS, a ∈ l1 →
      lookupName (l1 ++ a :: l2) t = lookupName (l1 ++ l2) t := by
  intro l1
  induction l1 with
  | nil => intro l2 ha; simp at ha
  | cons b l1 ih =>
    intro l2 ha
    simp only [List.cons_append, lookupName]
    cases hb : mget b t with
    | some s =>
      by_cases hs : s = ""
      · simp only [if_pos hs]
        rcases List.mem_cons.mp ha with hab | ha'
        · subst hab
          refine lookupName_skip a t (Or.inr ?_) l1 l2
          rw [hb, hs]
        · exact ih l2 ha'
      · simp only [if_neg hs]
    | none =>
      rcases List.mem_cons.mp ha with hab | ha'
      · subst hab
        exact lookupName_skip a t (Or.inl hb) l1 l2
      · exact ih l2 ha'

/-- Snapshots of the tail that fail a filter may be removed, provided every
removed snapshot already occurs in the head of the search list. -/
theorem lookupName_filter (p : MapS → Bool) (t : Nat) :
    ∀ (l2 l1 : List MapS), (∀ a ∈ l2, p a = false → a ∈ l1) →
      lookupName (l1 ++ l2.filter p) t = lookupName (l1 ++ l2) t := by
  intro l2
  induction l2 with
  | nil => intro l1 _; rfl
  | cons a l2 ih =>
    intro l1 hmem
    by_cases hp : p a = true
    · rw [List.filter_cons_of_pos hp]
      have h2 : ∀ b ∈ l2, p b = false → b ∈ l1 ++ [a] := fun b hb hpb =>
        List.mem_append_left _ (hmem b (List.mem_cons_of_mem _ hb) hpb)
      have hrec := ih (l1 ++ [a]) h2
      rw [List.append_assoc, List.append_assoc] at hrec
      simpa using hrec
    · have hpf : p a = false := by simpa using hp
      rw [List.filter_cons_of_neg (by simp [hpf])]
      have ha : a ∈ l1 := hmem a (List.mem_cons_self _ _) hpf
      rw [lookupName_dup a t l1 l2 ha]
      exact ih l1 (fun b hb hpb => hmem b (List.mem_cons_of_mem _ hb) hpb)

/-- The code searches destination, source and then every configured
snapshot; dropping the duplicated destination and source occurrences from
the tail — i.e. searching destination, source, then every other
configured group — gives the same name. -/
theorem lookupName_spec_order (members srcM : MapS) (all : List MapS) (t : Nat) :
    lookupName ([members, srcM] ++ all) t =
      lookupName ([members, srcM] ++
        all.filter (fun mm => !(mm == members || mm == srcM))) t := by
  refine (lookupName_filter _ t all [members, srcM] ?_).symm
  intro a ha hpa
  simp only [Bool.not_eq_false', Bool.or_eq_true, beq_iff_eq] at hpa
  rcases hpa with h | h
  · subst h; exact List.mem_cons_self _ _
  · subst h; exact List.mem_cons_of_mem _ (List.mem_cons_self _ _)

/-- Scanning a region in which no quote resolves keeps the quote `none`
and the self-mention counter untouched: each segment of the region is kept
unless it is a `Quote` segment. -/
theorem filterChain_unresolved_append (stored : StoredMessages) (qq : Nat)
    (l1 : List Segment)
    (h : ∀ id, Segment.Quote id ∈ l1 → stored.translate id = none) :
    ∀ rest c, filterChain stored qq (l1 ++ rest) none c =
      ((l1.filter (fun s => !s.isQuoteSeg)) ++ (filterChain stored qq rest none c).1,
       (filterChain stored qq rest none c).2) := by
  induction l1 with
  | nil =>
    intro rest c
    simp [filterChain]
  | cons s l1 ih =>
    intro rest c
    have h' : ∀ id, Segment.Quote id ∈ l1 → stored.translate id = none :=
      fun id hid => h id (List.mem_cons_of_mem _ hid)
    cases s with
    | At target display =>
      simp only [List.cons_append, filterChain, Option.isSome_none,
        Bool.false_and, Bool.false_eq_true, if_false, List.append_eq]
      rw [ih h' rest c]
      simp [Segment.isQuoteSeg]
    | Source id =>
      simp only [List.cons_append, filterChain, List.append_eq]
      rw [ih h' rest c]
      simp [Segment.isQuoteSeg]
    | Quote id =>
      have hid := h id (List.mem_cons_self _ _)
      simp only [List.cons_append, filterChain, hid, Option.orElse, List.append_eq]
      rw [ih h' rest c]
      simp [Segment.isQuoteSeg]
    | Plain t =>
      simp only [List.cons_append, filterChain, List.append_eq]
      rw [ih h' rest c]
      simp [Segment.isQuoteSeg]
    | Other k =>
      simp only [List.cons_append, filterChain, List.append_eq]
      rw [ih h' rest c]
      simp [Segment.isQuoteSeg]

/-- Once a quote is resolved, the filter keeps at most one further
self-mention: exactly one when the region contains any (counter still 0),
none when the counter has already advanced. -/
theorem filterChain_selfAt_of_some (stored : StoredMessages) (qq : Nat)
    (l : List Segment) :
    ∀ q0 : Option StoredMessage, q0.isSome = true →
      (((filterChain stored qq l q0 0).1.countP (Segment.isAtOf qq) =
        min (l.countP (Segment.isAtOf qq)) 1) ∧
       (∀ c, c ≠ 0 →
        (filterChain stored qq l q0 c).1.countP (Segment.isAtOf qq) = 0)) := by
  induction l with
  | nil =>
    intro q0 hq
    exact ⟨by simp [filterChain], fun c hc => by simp [filterChain]⟩
  | cons s rest ih =>
    intro q0 hq
    cases s with
    | At target display =>
      by_cases ht : (target == qq) = true
      · constructor
        · have hcond : (q0.isSome && (target == qq)) = true := by
            rw [hq, ht]; rfl
          simp only [filterChain, hcond, if_true]
          norm_num
          have hzero := (ih q0 hq).2 1 (by omega)
          simp only [List.countP_cons, Segment.isAtOf, ht]
          rw [hzero]
          simp [Nat.min_def]
        · intro c hc
          have hcond : (q0.isSome && (target == qq)) = true := by
            rw [hq, ht]; rfl
          have hc0 : (c == 0) = false := by
            simp [hc]
          simp only [filterChain, hcond, if_true, hc0, Bool.false_eq_true, if_false]
          exact (ih q0 hq).2 (c + 1) (by omega)
      · have ht' : (target == qq) = false := by
          simp only [Bool.not_eq_true] at ht
          exact ht
        have hcond : (q0.isSome && (target == qq)) = false := by
          rw [ht']; simp
        have hatn : Segment.isAtOf qq (.At target display) = false := by
          simp [Segment.isAtOf, ht']
        constructor
        · simp only [filterChain, hcond, Bool.false_eq_true, if_false,
            List.countP_cons, hatn, if_false]
          have := (ih q0 hq).1
          simpa using this
        · intro c hc
          simp only [filterChain, hcond, Bool.false_eq_true, if_false,
            List.countP_cons, hatn, if_false]
          have := (ih q0 hq).2 c hc
          simpa using this
    | Source id =>
      have hatn : Segment.isAtOf qq (.Source id) = false := rfl
      constructor
      · simp only [filterChain, List.countP_cons, hatn, if_false]
        have := (ih q0 hq).1
        simpa using this
      · intro c hc
        simp only [filterChain, List.countP_cons, hatn, if_false]
        have := (ih q0 hq).2 c hc
        simpa using this
    | Quote id =>
      have hq' : ((stored.translate id).orElse (fun _ => q0)).isSome = true :=
        isSome_orElse_of_isSome hq
      have hatn : Segment.isAtOf qq (.Quote id) = false := rfl
      constructor
      · simp only [filterChain, List.countP_cons, hatn, if_false]
        have := (ih _ hq').1
        simpa using this
      · intro c hc
        simp only [filterChain]
        exact (ih _ hq').2 c hc
    | Plain t =>
      have hatn : Segment.isAtOf qq (.Plain t) = false := rfl
      constructor
      · simp only [filterChain, List.countP_cons, hatn, if_false]
        have := (ih q0 hq).1
        simpa using this
      · intro c hc
        simp only [filterChain, List.countP_cons, hatn, if_false]
        have := (ih q0 hq).2 c hc
        simpa using this
    | Other k =>
      have hatn : Segment.isAtOf qq (.Other k) = false := rfl
      constructor
      · simp only [filterChain, List.countP_cons, hatn, if_false]
        have := (ih q0 hq).1
        simpa using this
      · intro c hc
        simp only [filterChain, List.countP_cons, hatn, if_false]
        have := (ih q0 hq).2 c hc
        simpa using this

theorem mget_isSome_of_mem_mkeys {α : Type} {m : List (Nat × α)} {k : Nat}
    (h : k ∈ mkeys m) : (mget m k).isSome = true := by
  simp only [mkeys, List.mem_map] at h
  obtain ⟨p, hp, hk⟩ := h
  have hfind : (m.find? (fun q => q.1 == k)).isSome :=
    List.find?_isSome.mpr ⟨p, hp, by simp [hk]⟩
  simpa [mget] using hfind

theorem mget_single {α : Type} (k : Nat) (v : α) :
    mget [(k, v)] k = some v := by
  simp [mget, List.find?]

theorem keyLast_of_nodup {l : List (Nat × StoredMessage)}
    (hnd : (l.map Prod.fst).Nodup) {k : Nat} {v : StoredMessage}
    (h : (k, v) ∈ l) : KeyLast l k v := by
  induction l with
  | nil => simp at h
  | cons p rest ih =>
    rw [List.map_cons, List.nodup_cons] at hnd
    rcases List.mem_cons.mp h with h | h
    · obtain ⟨k0, v0⟩ := p
      obtain ⟨hk, hv⟩ := Prod.mk.injEq .. ▸ h
      simp only [Prod.mk.injEq] at h
      rw [← h.1, ← h.2] at hnd ⊢
      exact KeyLast.head _ _ _ (by simpa using hnd.1)
    · exact KeyLast.tail p (ih hnd.2 h)

namespace StoredMessages

theorem translate_isSome_of_mem_keyFinset {s : StoredMessages} {k : Nat}
    (h : k ∈ keyFinset s) : (s.translate k).isSome = true := by
  simp only [keyFinset, List.mem_toFinset, List.mem_append] at h
  unfold translate
  cases hc : mget s.current k with
  | some v => simp [Option.orElse]
  | none =>
    rcases h with h | h
    · have := mget_isSome_of_mem_mkeys h
      rw [hc] at this
      simp at this
    · have := mget_isSome_of_mem_mkeys h
      simpa [Option.orElse] using this

/-- A batch of distinct fresh keys inserted into a cache whose current
generation is empty fills it to exactly the batch length. -/
theorem addAll_fresh_length {s : StoredMessages} (h : WFI s)
    (hcur : s.current = []) {l : List (Nat × StoredMessage)}
    (hlen : l.length ≤ threshold + 1) (hnd : (l.map Prod.fst).Nodup) :
    (s.addAll l).current.length = l.length := by
  have hlen0 : s.current.length + l.length ≤ threshold + 1 := by
    rw [hcur]; simpa using hlen
  obtain ⟨-, -, -, h4, -, h6⟩ := addAll_no_rot h hlen0
  have hupper : (s.addAll l).current.length ≤ l.length := by
    rw [hcur] at h4; simpa using h4
  have hsub : (l.map Prod.fst).toFinset ⊆ (mkeys (s.addAll l).current).toFinset := by
    intro k hk
    rw [List.mem_toFinset] at hk ⊢
    obtain ⟨v, hv⟩ := keyLast_of_mem_keys hk
    exact mget_some_mem_mkeys (h6 k v hv)
  have hcard := Finset.card_le_card hsub
  rw [List.toFinset_card_of_nodup hnd] at hcard
  have hle2 := (mkeys (s.addAll l).current).toFinset_card_le
  have hml : (mkeys (s.addAll l).current).length = (s.addAll l).current.length := by
    simp [mkeys]
  have he : (l.map Prod.fst).length = l.length := by simp
  omega

/-- Running a second batch against a cache whose current generation is
over threshold: the first insert rotates, the previous window survives as
the other generation, and the whole second batch lands in the fresh
generation. -/
theorem addAll_second_window {s1 : StoredMessages} (h : WFI s1)
    (hfull : threshold < s1.current.length) {l2 : List (Nat × StoredMessage)}
    (hl2 : l2.length ≤ threshold + 1) (hne : l2 ≠ []) :
    (s1.addAll l2).other = s1.current ∧
    (∀ k v, KeyLast l2 k v → mget (s1.addAll l2).current k = some v) := by
  cases l2 with
  | nil => exact absurd rfl hne
  | cons p rest =>
    obtain ⟨k1, v1⟩ := p
    obtain ⟨hc, ho, hci, hoi⟩ := add_rot h hfull (k := k1) (v := v1)
    have hwf2 : WFI (s1.add k1 v1) := wfi_add h k1 v1
    simp only [List.length_cons] at hl2
    have hlen2 : (s1.add k1 v1).current.length + rest.length ≤ threshold + 1 := by
      rw [hc]; simp; omega
    obtain ⟨-, -, n3, -, n5, n6⟩ := addAll_no_rot hwf2 hlen2
    rw [addAll_cons]
    refine ⟨by rw [n3, ho], ?_⟩
    intro k v hkl
    cases hkl with
    | head _ _ _ hnot =>
      rw [n5 _ hnot, hc, mget_single]
    | tail _ h' => exact n6 _ _ h'

end StoredMessages

/-- Whether a further batch of adds, run from `s`, triggers no generation
rotation at any step. -/
def noRotDuring (s : StoredMessages) : List (Nat × StoredMessage) → Bool
  | [] => true
  | p :: rest =>
    (decide (s.current.length ≤ threshold)) && noRotDuring (s.add p.1 p.2) rest

/-- While no rotation occurs, `translate` keeps answering for every key it
already answered for. -/
theorem noRot_preserves_isSome {s : StoredMessages} (h : StoredMessages.WFI s)
    {post : List (Nat × StoredMessage)} (hnr : noRotDuring s post = true)
    {k : Nat} (hk : (s.translate k).isSome = true) :
    ((s.addAll post).translate k).isSome = true := by
  induction post generalizing s with
  | nil => exact hk
  | cons p rest ih =>
    simp only [noRotDuring, Bool.and_eq_true, decide_eq_true_eq] at hnr
    obtain ⟨hle, hrest⟩ := hnr
    have hch := StoredMessages.add_no_rot h (by omega) (k := p.1) (v := p.2)
    have hk' : ((s.add p.1 p.2).translate k).isSome = true := by
      by_cases hkp : k = p.1
      · rw [hkp]
        have hcur : mget (s.add p.1 p.2).current p.1 = some p.2 := by
          rw [hch.1, mget_mset_self]
        rw [StoredMessages.translate_eq_of_current hcur]
        rfl
      · unfold StoredMessages.translate at hk ⊢
        rw [hch.1, hch.2.1, mget_mset_ne _ _ _ _ hkp]
        exact hk
    rw [StoredMessages.addAll_cons']
    exact ih (StoredMessages.wfi_add h p.1 p.2) hrest hk'

/-- Static description of a configured group: its number and its member
snapshot (lines 80–88).  The per-group `StoredMessages` object is kept
separately, indexed by the group's position in the configuration; two
groups hold the same cache object exactly when they sit at the same
position, which models the JS object identity used at line 175. -/
structure GroupInfo where
  gid : Nat
  members : MapS
deriving DecidableEq, Repr

/-- Pairing list elements with their positions starting at `n`. -/
def enumerate {α : Type} : Nat → List α → List (Nat × α)
  | _, [] => []
  | n, a :: rest => (n, a) :: enumerate (n + 1) rest

theorem enumerate_mem_ge {α : Type} :
    ∀ (l : List α) (n i : Nat) (a : α), (i, a) ∈ enumerate n l → n ≤ i := by
  intro l
  induction l with
  | nil => intro n i a h; simp [enumerate] at h
  | cons b rest ih =>
    intro n i a h
    simp only [enumerate, List.mem_cons] at h
    rcases h with h | h
    · simp only [Prod.mk.injEq] at h
      omega
    · have := ih (n + 1) i a h
      omega

theorem enumerate_unique {α : Type} :
    ∀ (l : List α) (n i : Nat) (a b : α),
      (i, a) ∈ enumerate n l → (i, b) ∈ enumerate n l → a = b := by
  intro l
  induction l with
  | nil => intro n i a b h _; simp [enumerate] at h
  | cons c rest ih =>
    intro n i a b ha hb
    simp only [enumerate, List.mem_cons, Prod.mk.injEq] at ha hb
    rcases ha with ⟨hi, hc⟩ | ha
    · rcases hb with ⟨_, hc'⟩ | hb
      · rw [hc, hc']
      · have := enumerate_mem_ge rest (n + 1) i b hb
        omega
    · rcases hb with ⟨hi, hc'⟩ | hb
      · have := enumerate_mem_ge rest (n + 1) i a ha
        omega
      · exact ih (n + 1) i a b ha hb

/-- Point update of the position-indexed family of per-group caches. -/
def updateStore (stores : Nat → StoredMessages) (i : Nat)
    (f : StoredMessages → StoredMessages) : Nat → StoredMessages :=
  fun j => if j = i then f (stores j) else stores j

theorem updateStore_self (stores : Nat → StoredMessages) (i : Nat)
    (f : StoredMessages → StoredMessages) :
    updateStore stores i f i = f (stores i) := by
  simp [updateStore]

theorem updateStore_ne (stores : Nat → StoredMessages) {i j : Nat}
    (f : StoredMessages → StoredMessages) (h : j ≠ i) :
    updateStore stores i f j = stores j := by
  simp [updateStore, h]

theorem addAll_append (s : StoredMessages)
    (l1 l2 : List (Nat × StoredMessage)) :
    s.addAll (l1 ++ l2) = (s.addAll l1).addAll l2 :=
  List.foldl_append _ _ _ _

/-- One iteration of the mapping-recording loop (lines 174–180) for the
successful result `r = (sentId, destination index)`: the destination's
cache gains a mapping from every other successful target's sent id and
from the original message id `m` to `{author, id: r's own sent id}`, and
the source group's cache gains a mapping from `r`'s sent id back to
`{author, id: m}`. -/
def recordOne (author m srcIdx : Nat) (results : List (Nat × Nat))
    (st : Nat → StoredMessages) (r : Nat × Nat) : Nat → StoredMessages :=
  let others := results.filter (fun o => o.2 != r.2)
  let st1 := others.foldl
    (fun st o => updateStore st r.2 (fun c => c.add o.1 ⟨r.1, author⟩)) st
  let st2 := updateStore st1 r.2 (fun c => c.add m ⟨r.1, author⟩)
  updateStore st2 srcIdx (fun c => c.add r.1 ⟨m, author⟩)

/-- The whole mapping-recording loop (lines 172–181) over the successful
results. -/
def recordMappings (author m srcIdx : Nat) (results : List (Nat × Nat))
    (stores : Nat → StoredMessages) : Nat → StoredMessages :=
  results.foldl (recordOne author m srcIdx results) stores

theorem innerFold_ne (i : Nat) (val : StoredMessage) :
    ∀ (l : List (Nat × Nat)) (st : Nat → StoredMessages) (j : Nat), j ≠ i →
      (l.foldl (fun st o => updateStore st i (fun c => c.add o.1 val)) st) j
        = st j := by
  intro l
  induction l with
  | nil => intro st j h; rfl
  | cons o rest ih =>
    intro st j h
    simp only [List.foldl_cons]
    rw [ih _ j h, updateStore_ne _ _ h]

theorem innerFold_self (i : Nat) (val : StoredMessage) :
    ∀ (l : List (Nat × Nat)) (st : Nat → StoredMessages),
      (l.foldl (fun st o => updateStore st i (fun c => c.add o.1 val)) st) i
        = (st i).addAll (l.map (fun o => (o.1, val))) := by
  intro l
  induction l with
  | nil => intro st; rfl
  | cons o rest ih =>
    intro st
    simp only [List.foldl_cons, List.map_cons]
    rw [ih, updateStore_self, StoredMessages.addAll_cons]

theorem recordOne_ne (author m srcIdx : Nat) (results : List (Nat × Nat))
    (st : Nat → StoredMessages) (r : Nat × Nat) (j : Nat)
    (hj2 : j ≠ r.2) (hjs : j ≠ srcIdx) :
    recordOne author m srcIdx results st r j = st j := by
  unfold recordOne
  rw [updateStore_ne _ _ hjs, updateStore_ne _ _ hj2,
    innerFold_ne _ _ _ _ _ hj2]

theorem recordOne_self (author m srcIdx : Nat) (results : List (Nat × Nat))
    (st : Nat → StoredMessages) (sId i : Nat) (hr : i ≠ srcIdx) :
    recordOne author m srcIdx results st (sId, i) i =
      (st i).addAll
        (((results.filter (fun o => o.2 != i)).map
            (fun o => (o.1, (⟨sId, author⟩ : StoredMessage)))) ++
          [(m, ⟨sId, author⟩)]) := by
  unfold recordOne
  rw [updateStore_ne _ _ hr, updateStore_self, innerFold_self,
    addAll_append]
  rfl

theorem recordOne_src (author m srcIdx : Nat) (results : List (Nat × Nat))
    (st : Nat → StoredMessages) (r : Nat × Nat) (hr : r.2 ≠ srcIdx) :
    recordOne author m srcIdx results st r srcIdx =
      (st srcIdx).add r.1 ⟨m, author⟩ := by
  unfold recordOne
  rw [updateStore_self, updateStore_ne _ _ (Ne.symm hr),
    innerFold_ne _ _ _ _ _ (Ne.symm hr)]

theorem recordFold_ne (author m srcIdx : Nat) (results : List (Nat × Nat)) :
    ∀ (rs : List (Nat × Nat)) (st : Nat → StoredMessages) (j : Nat),
      (∀ r ∈ rs, r.2 ≠ j) → j ≠ srcIdx →
      (rs.foldl (recordOne author m srcIdx results) st) j = st j := by
  intro rs
  induction rs with
  | nil => intro st j _ _; rfl
  | cons r rs ih =>
    intro st j hall hjs
    simp only [List.foldl_cons]
    rw [ih _ j (fun r' h => hall r' (List.mem_cons_of_mem _ h)) hjs,
      recordOne_ne _ _ _ _ _ _ _ (Ne.symm (hall r (List.mem_cons_self _ _))) hjs]

/-- After the whole recording loop, the source group's cache has received
exactly one `add` per successful result: its sent id mapped back to the
original message. -/
theorem recordMappings_at_src (author m srcIdx : Nat)
    (results : List (Nat × Nat)) :
    ∀ (rs : List (Nat × Nat)) (stores : Nat → StoredMessages),
      (∀ r ∈ rs, r.2 ≠ srcIdx) →
      (rs.foldl (recordOne author m srcIdx results) stores) srcIdx =
        (stores srcIdx).addAll
          (rs.map (fun r => (r.1, (⟨m, author⟩ : StoredMessage)))) := by
  intro rs
  induction rs with
  | nil => intro stores _; rfl
  | cons r rs ih =>
    intro stores hall
    simp only [List.foldl_cons, List.map_cons]
    rw [ih _ (fun r' h => hall r' (List.mem_cons_of_mem _ h)),
      recordOne_src _ _ _ _ _ _ (hall r (List.mem_cons_self _ _)),
      StoredMessages.addAll_cons]

/-- After the whole recording loop, the cache of the destination of the
successful result `(s, i)` has received exactly the adds of its own
iteration: the other targets' sent ids and the original id `m`, all mapped
to `{author, id: s}`. -/
theorem recordMappings_at_dest (author m srcIdx : Nat)
    {results : List (Nat × Nat)} (stores : Nat → StoredMessages)
    (hnd : (results.map Prod.snd).Nodup)
    (hsrc : ∀ r ∈ results, r.2 ≠ srcIdx)
    {s i : Nat} (hmem : (s, i) ∈ results) :
    recordMappings author m srcIdx results stores i =
      (stores i).addAll
        (((results.filter (fun o => o.2 != i)).map
            (fun o => (o.1, (⟨s, author⟩ : StoredMessage)))) ++
          [(m, ⟨s, author⟩)]) := by
  obtain ⟨rs1, rs2, hsplit⟩ := List.append_of_mem hmem
  subst hsplit
  have his : i ≠ srcIdx := hsrc (s, i) hmem
  have hnd' := hnd
  rw [List.map_append, List.map_cons] at hnd'
  rw [List.nodup_append] at hnd'
  obtain ⟨hn1, hn2, hdisj⟩ := hnd'
  have hi1 : ∀ r ∈ rs1, r.2 ≠ i := by
    intro r hr hri
    have hmem1 : i ∈ rs1.map Prod.snd := by
      rw [← hri]
      exact List.mem_map_of_mem Prod.snd hr
    exact hdisj hmem1 (List.mem_cons_self _ _)
  have hi2 : ∀ r ∈ rs2, r.2 ≠ i := by
    intro r hr hri
    have hni : i ∉ rs2.map Prod.snd := (List.nodup_cons.mp hn2).1
    apply hni
    rw [← hri]
    exact List.mem_map_of_mem Prod.snd hr
  unfold recordMappings
  rw [List.foldl_append, List.foldl_cons]
  rw [recordFold_ne _ _ _ _ rs2 _ i hi2 his]
  have hstep := recordOne_self author m srcIdx (rs1 ++ (s, i) :: rs2)
    (rs1.foldl (recordOne author m srcIdx (rs1 ++ (s, i) :: rs2)) stores) s i his
  rw [hstep, recordFold_ne _ _ _ _ rs1 _ i hi1 his]

/-- The destination list for an inbound message: every configured group,
with its configuration index, whose number differs from the source
group's (line 108). -/
def destinations (groups : List GroupInfo) (fromGroup : Nat) :
    List (Nat × GroupInfo) :=
  (enumerate 0 groups).filter (fun ig => ig.2.gid != fromGroup)

/-- The message id the handler reads from `messageChain[0].id` (line 101):
inbound chains begin with the `Source` segment carrying the id. -/
def headMessageId : List Segment → Nat
  | .Source id :: _ => id
  | .Quote id :: _ => id
  | _ => 0

/-- Everything the fan-out of one inbound event produced: the send
attempts `(group, outbound chain, replyTo)` in destination order, the
successful results `(sentId, destination index)`, and the caches. -/
structure RelayOutcome where
  attempts : List (Nat × List Segment × Option Nat)
  results : List (Nat × Nat)
  stores : Nat → StoredMessages

/-- The per-destination rewrite and the send-argument tuple for one
destination (lines 109–164): the destination's own cache drives the quote
resolution, its member snapshot drives the mention rewrite, and the
resolved quote's id becomes the reply target. -/
def destAttempt (qq : Nat) (stores : Nat → StoredMessages) (srcMembers : MapS)
    (allMembers : List MapS) (chain : List Segment) (ig : Nat × GroupInfo) :
    Nat × List Segment × Option Nat :=
  let pc := processChain (stores ig.1) qq ig.2.members (some srcMembers)
    allMembers chain
  (ig.2.gid, pc.1, pc.2.map (·.id))

/-- The outcome of the single `sendGroupMessage` call made for one
destination: the rewritten chain is sent to the destination's group as a
reply to the resolved quote's id; `none` models the thrown-and-caught
failure of lines 167–169. -/
def sendOutcome (send : Nat → List Segment → Option Nat → Option Nat)
    (qq : Nat) (stores : Nat → StoredMessages) (srcMembers : MapS)
    (allMembers : List MapS) (chain : List Segment) (ig : Nat × GroupInfo) :
    Option Nat :=
  let a := destAttempt qq stores srcMembers allMembers chain ig
  send a.1 a.2.1 a.2.2

/-- The `GroupMessage` handler (lines 96–186).  `send g chain replyTo`
models `mirai.api.sendGroupMessage(chain, g, replyTo)`, returning the sent
message id or `none` when the call throws (the per-destination catch of
lines 167–169 turns a throw into an absent result).  Events from
unconfigured groups are ignored; otherwise every other configured group is
rewritten for and sent to, the successful results are collected, and the
identity mappings are recorded. -/
def relayEvent (qq : Nat) (groups : List GroupInfo)
    (stores : Nat → StoredMessages) (fromGroup sender : Nat)
    (chain : List Segment)
    (send : Nat → List Segment → Option Nat → Option Nat) : RelayOutcome :=
  match (enumerate 0 groups).find? (fun ig => ig.2.gid == fromGroup) with
  | none => ⟨[], [], stores⟩
  | some src =>
    let messageId := headMessageId chain
    let dests := destinations groups fromGroup
    let attempts := dests.map
      (destAttempt qq stores src.2.members (groups.map (·.members)) chain)
    let results := dests.filterMap (fun ig =>
      (sendOutcome send qq stores src.2.members (groups.map (·.members)) chain ig).map
        (fun sid => (sid, ig.1)))
    ⟨attempts, results, recordMappings sender messageId src.1 results stores⟩

/-! ### Claims about the identity cache (C5, C6, C7, C10) -/

/-- The insertion trace refuting C5: `threshold + 1` distinct keys added
to an empty cache. -/
def c5batch : List (Nat × StoredMessage) :=
  (List.range (threshold + 1)).map (fun k => (k, ⟨k, 1⟩))

theorem c5batch_keys : c5batch.map Prod.fst = List.range (threshold + 1) := by
  rw [c5batch, List.map_map]
  exact List.map_id _

/-- C5 is refuted: after inserting `threshold + 1 = 201` distinct keys
into a fresh cache — none of which triggers a rotation — the current
generation holds 201 entries, strictly more than the threshold of 200 the
claim says is never exceeded: the rotation check runs before the insert
and only fires once the size already exceeds the threshold. -/
theorem c5_counterexample :
    threshold < (StoredMessages.empty.addAll c5batch).current.length := by
  have hnd : (c5batch.map Prod.fst).Nodup := by
    rw [c5batch_keys]; exact List.nodup_range _
  have hlen : c5batch.length = threshold + 1 := by simp [c5batch]
  have h := StoredMessages.addAll_fresh_length StoredMessages.wfi_empty rfl
    (le_of_eq hlen) hnd
  omega

/-- C5 (amended): for every sequence of `add` calls from an empty cache
the current generation never holds more than `threshold + 1` entries, and
an `add` rotates the generations exactly when the current generation's
size already strictly exceeds the threshold when the `add` begins (not
when the insertion would make it exceed the threshold). -/
theorem c5_amended_current_bound (l : List (Nat × StoredMessage)) :
    (StoredMessages.empty.addAll l).current.length ≤ threshold + 1 ∧
    (∀ k v,
      ((StoredMessages.empty.addAll l).add k v).currentIndex ≠
          (StoredMessages.empty.addAll l).currentIndex ↔
        threshold < (StoredMessages.empty.addAll l).current.length) := by
  have hinv := StoredMessages.inv_addAll StoredMessages.inv_empty l
  exact ⟨hinv.2.1, fun k v => StoredMessages.add_rotates_iff hinv.1 k v⟩

/-- Closed instance of `c5_amended_current_bound` at a concrete trace. -/
theorem c5_amended_current_bound_witness :
    (StoredMessages.empty.addAll [(3, ⟨4, 5⟩)]).current.length ≤ threshold + 1 ∧
    ¬ (((StoredMessages.empty.addAll [(3, ⟨4, 5⟩)]).add 6 ⟨7, 8⟩).currentIndex ≠
        (StoredMessages.empty.addAll [(3, ⟨4, 5⟩)]).currentIndex) :=
  ⟨(c5_amended_current_bound [(3, ⟨4, 5⟩)]).1,
    fun h => by
      have := ((c5_amended_current_bound [(3, ⟨4, 5⟩)]).2 6 ⟨7, 8⟩).mp h
      revert this
      decide⟩

/-- C10: from an empty cache, each generation holds at most
`threshold + 1 = 201` entries at any time; a rotation happens exactly when
the current generation's size already strictly exceeds the threshold at
the start of the next `add`; and hence `translate` can answer for at most
`2 * (threshold + 1) = 402` distinct keys, all of which lie in the two
generations' key set. -/
theorem c10_generation_and_reach_bounds (l : List (Nat × StoredMessage)) :
    (StoredMessages.empty.addAll l).current.length ≤ threshold + 1 ∧
    (StoredMessages.empty.addAll l).other.length ≤ threshold + 1 ∧
    (StoredMessages.keyFinset (StoredMessages.empty.addAll l)).card ≤
      2 * (threshold + 1) ∧
    (∀ k, ((StoredMessages.empty.addAll l).translate k).isSome = true →
      k ∈ StoredMessages.keyFinset (StoredMessages.empty.addAll l)) ∧
    (∀ k v,
      ((StoredMessages.empty.addAll l).add k v).currentIndex ≠
          (StoredMessages.empty.addAll l).currentIndex ↔
        threshold < (StoredMessages.empty.addAll l).current.length) := by
  have hinv := StoredMessages.inv_addAll StoredMessages.inv_empty l
  obtain ⟨hwf, hb1, hb2⟩ := hinv
  have hcard := StoredMessages.card_keyFinset_le (StoredMessages.empty.addAll l)
  refine ⟨hb1, hb2, by omega, ?_,
    fun k v => StoredMessages.add_rotates_iff hwf k v⟩
  intro k hk
  exact StoredMessages.mem_keyFinset_of_translate hk

/-- Closed instance of `c10_generation_and_reach_bounds`. -/
theorem c10_generation_and_reach_bounds_witness :
    ((StoredMessages.empty.addAll [(7, ⟨1, 2⟩)]).translate 7).isSome = true ∧
    7 ∈ StoredMessages.keyFinset (StoredMessages.empty.addAll [(7, ⟨1, 2⟩)]) :=
  ⟨by decide, (c10_generation_and_reach_bounds [(7, ⟨1, 2⟩)]).2.2.2.1 7 (by decide)⟩

/-- C7 (amended): for every sequence of adds from an empty cache the keys
`translate` can answer for all lie in the two generations' key set, whose
size never exceeds `2 * (threshold + 1) = 402` (the claimed bound of
`2 * threshold = 400` is exceeded, see the counterexample). -/
theorem c7_amended_reach_bound (l : List (Nat × StoredMessage)) :
    (StoredMessages.keyFinset (StoredMessages.empty.addAll l)).card ≤
      2 * (threshold + 1) ∧
    (∀ k, ((StoredMessages.empty.addAll l).translate k).isSome = true →
      k ∈ StoredMessages.keyFinset (StoredMessages.empty.addAll l)) := by
  have hinv := StoredMessages.inv_addAll StoredMessages.inv_empty l
  obtain ⟨hwf, hb1, hb2⟩ := hinv
  have hcard := StoredMessages.card_keyFinset_le (StoredMessages.empty.addAll l)
  refine ⟨by omega, fun k hk => StoredMessages.mem_keyFinset_of_translate hk⟩

/-- Closed instance of `c7_amended_reach_bound`. -/
theorem c7_amended_reach_bound_witness :
    ((StoredMessages.empty.addAll [(9, ⟨1, 1⟩)]).translate 9).isSome = true ∧
    9 ∈ StoredMessages.keyFinset (StoredMessages.empty.addAll [(9, ⟨1, 1⟩)]) :=
  ⟨by decide, (c7_amended_reach_bound [(9, ⟨1, 1⟩)]).2 9 (by decide)⟩

/-- First window of the C7 counterexample trace: keys `0..200`. -/
def c7batchA : List (Nat × StoredMessage) :=
  (List.range (threshold + 1)).map (fun k => (k, ⟨k, 1⟩))

/-- Second window of the C7 counterexample trace: keys `201..401`. -/
def c7batchB : List (Nat × StoredMessage) :=
  (List.range (threshold + 1)).map (fun k => (k + (threshold + 1), ⟨k, 1⟩))

/-- The cache state after inserting 402 distinct keys from empty. -/
def s402 : StoredMessages :=
  StoredMessages.empty.addAll (c7batchA ++ c7batchB)

/-- C7 is refuted: after inserting 402 distinct keys the cache answers
`translate` for 402 distinct keys simultaneously — more than the claimed
bound of `2 * threshold = 400`. -/
theorem c7_counterexample :
    2 * threshold < (StoredMessages.keyFinset s402).card ∧
    ∀ k ∈ StoredMessages.keyFinset s402, (s402.translate k).isSome = true := by
  have hAkeys : c7batchA.map Prod.fst = List.range (threshold + 1) := by
    rw [c7batchA, List.map_map]
    exact List.map_id _
  have hBkeys : c7batchB.map Prod.fst =
      (List.range (threshold + 1)).map (fun k => k + (threshold + 1)) := by
    rw [c7batchB, List.map_map]
    rfl
  have hAnd : (c7batchA.map Prod.fst).Nodup := by
    rw [hAkeys]; exact List.nodup_range _
  have hBnd : (c7batchB.map Prod.fst).Nodup := by
    rw [hBkeys]
    exact List.Nodup.map (fun a b h => by omega) (List.nodup_range _)
  have hAlen : c7batchA.length = threshold + 1 := by simp [c7batchA]
  have hBlen : c7batchB.length = threshold + 1 := by simp [c7batchB]
  have hwf1 : StoredMessages.WFI (StoredMessages.empty.addAll c7batchA) :=
    StoredMessages.wfi_addAll StoredMessages.wfi_empty c7batchA
  have hfull : threshold < (StoredMessages.empty.addAll c7batchA).current.length := by
    have := StoredMessages.addAll_fresh_length StoredMessages.wfi_empty rfl
      (le_of_eq hAlen) hAnd
    omega
  have hBne : c7batchB ≠ [] := by
    intro h
    rw [h] at hBlen
    simp [threshold] at hBlen
  obtain ⟨hother, hcurB⟩ := StoredMessages.addAll_second_window hwf1 hfull
    (le_of_eq hBlen) hBne
  have hs402 : s402 = (StoredMessages.empty.addAll c7batchA).addAll c7batchB :=
    addAll_append _ _ _
  have hA1 : ∀ p ∈ c7batchA, mget (StoredMessages.empty.addAll c7batchA).current p.1 = some p.2 := by
    intro p hp
    have hlen0 : StoredMessages.empty.current.length + c7batchA.length ≤ threshold + 1 := by
      rw [hAlen]
      simp [StoredMessages.empty, StoredMessages.current, StoredMessages.getData]
    obtain ⟨-, -, -, -, -, h6⟩ := StoredMessages.addAll_no_rot StoredMessages.wfi_empty hlen0
    exact h6 p.1 p.2 (keyLast_of_nodup hAnd (by simpa using hp))
  have hsub : ((c7batchA ++ c7batchB).map Prod.fst).toFinset ⊆
      StoredMessages.keyFinset s402 := by
    intro k hk
    rw [List.mem_toFinset, List.map_append, List.mem_append] at hk
    simp only [StoredMessages.keyFinset, List.mem_toFinset, List.mem_append]
    rcases hk with hk | hk
    · obtain ⟨p, hp, hpk⟩ := List.mem_map.mp hk
      right
      rw [hs402, hother, ← hpk]
      exact mget_some_mem_mkeys (hA1 p hp)
    · left
      obtain ⟨v, hv⟩ := keyLast_of_mem_keys hk
      rw [hs402]
      exact mget_some_mem_mkeys (hcurB k v hv)
  have hcomb : ((c7batchA ++ c7batchB).map Prod.fst).Nodup := by
    rw [List.map_append, List.nodup_append]
    refine ⟨hAnd, hBnd, ?_⟩
    intro a ha hb
    rw [hAkeys] at ha
    rw [hBkeys] at hb
    obtain ⟨b, hb1, hb2⟩ := List.mem_map.mp hb
    rw [List.mem_range] at ha
    omega
  have hcard := Finset.card_le_card hsub
  rw [List.toFinset_card_of_nodup hcomb] at hcard
  have hlen2 : ((c7batchA ++ c7batchB).map Prod.fst).length = 2 * (threshold + 1) := by
    simp [hAlen, hBlen]
    omega
  constructor
  · omega
  · intro k hk
    exact StoredMessages.translate_isSome_of_mem_keyFinset hk

/-- C6: after filling an empty cache with `threshold + 1` distinct keys,
the very next insert finds the current generation over threshold, triggers
a rotation, and lands in a freshly cleared generation holding only the new
entry; every previously inserted key stays reachable — with its value —
through the other generation, and stays reachable under any further adds
as long as the next rotation has not occurred. -/
theorem c6_rotation_window (l : List (Nat × StoredMessage))
    (hlen : l.length = threshold + 1) (hnd : (l.map Prod.fst).Nodup)
    (k' : Nat) (v' : StoredMessage) :
    (threshold < (StoredMessages.empty.addAll l).current.length ∧
      ((StoredMessages.empty.addAll l).add k' v').currentIndex ≠
        (StoredMessages.empty.addAll l).currentIndex) ∧
    ((StoredMessages.empty.addAll l).add k' v').current = [(k', v')] ∧
    (∀ p ∈ l,
      mget ((StoredMessages.empty.addAll l).add k' v').other p.1 = some p.2 ∧
      (((StoredMessages.empty.addAll l).add k' v').translate p.1).isSome = true) ∧
    (∀ post, noRotDuring ((StoredMessages.empty.addAll l).add k' v') post = true →
      ∀ p ∈ l,
        ((((StoredMessages.empty.addAll l).add k' v').addAll post).translate p.1).isSome
          = true) := by
  have hwf1 : StoredMessages.WFI (StoredMessages.empty.addAll l) :=
    StoredMessages.wfi_addAll StoredMessages.wfi_empty l
  have hfull : threshold < (StoredMessages.empty.addAll l).current.length := by
    have := StoredMessages.addAll_fresh_length StoredMessages.wfi_empty rfl
      (le_of_eq hlen) hnd
    omega
  obtain ⟨hc, ho, hci, hoi⟩ := StoredMessages.add_rot hwf1 hfull (k := k') (v := v')
  have hrot : ((StoredMessages.empty.addAll l).add k' v').currentIndex ≠
      (StoredMessages.empty.addAll l).currentIndex :=
    (StoredMessages.add_rotates_iff hwf1 k' v').mpr hfull
  have hmem : ∀ p ∈ l,
      mget ((StoredMessages.empty.addAll l).add k' v').other p.1 = some p.2 := by
    intro p hp
    have hlen0 : StoredMessages.empty.current.length + l.length ≤ threshold + 1 := by
      rw [hlen]
      simp [StoredMessages.empty, StoredMessages.current, StoredMessages.getData]
    obtain ⟨-, -, -, -, -, h6⟩ := StoredMessages.addAll_no_rot StoredMessages.wfi_empty hlen0
    rw [ho]
    exact h6 p.1 p.2 (keyLast_of_nodup hnd (by simpa using hp))
  have hisSome : ∀ p ∈ l,
      (((StoredMessages.empty.addAll l).add k' v').translate p.1).isSome = true := by
    intro p hp
    unfold StoredMessages.translate
    cases hcc : mget ((StoredMessages.empty.addAll l).add k' v').current p.1 with
    | some w => simp [Option.orElse]
    | none => simp [Option.orElse, hmem p hp]
  refine ⟨⟨hfull, hrot⟩, hc, fun p hp => ⟨hmem p hp, hisSome p hp⟩, ?_⟩
  intro post hpost p hp
  exact noRot_preserves_isSome (StoredMessages.wfi_add hwf1 k' v') hpost (hisSome p hp)

/-- Concrete trace for the `c6_rotation_window` witness. -/
def c6batch : List (Nat × StoredMessage) :=
  (List.range (threshold + 1)).map (fun k => (k, ⟨k, 2⟩))

/-- Closed instance of `c6_rotation_window` at a concrete trace of 201
distinct keys followed by the insert of key 999. -/
theorem c6_rotation_window_witness :
    (c6batch.length = threshold + 1 ∧ (c6batch.map Prod.fst).Nodup) ∧
    (threshold < (StoredMessages.empty.addAll c6batch).current.length ∧
      ((StoredMessages.empty.addAll c6batch).add 999 ⟨7, 8⟩).currentIndex ≠
        (StoredMessages.empty.addAll c6batch).currentIndex) := by
  have h1 : c6batch.length = threshold + 1 := by simp [c6batch]
  have h2 : (c6batch.map Prod.fst).Nodup := by
    have hkeys : c6batch.map Prod.fst = List.range (threshold + 1) := by
      rw [c6batch, List.map_map]
      exact List.map_id _
    rw [hkeys]; exact List.nodup_range _
  exact ⟨⟨h1, h2⟩, (c6_rotation_window c6batch h1 h2 999 ⟨7, 8⟩).1⟩

/-! ### C1 — quote resolution -/

/-- Concrete configuration refuting C1's "source cache" part: two groups,
the source group's cache resolves message 5, the destination's cache is
empty. -/
def c1groups : List GroupInfo := [⟨1, []⟩, ⟨2, []⟩]

/-- Source cache (index 0) maps 5 to `{author 3, id 77}`; destination
cache (index 1) is empty. -/
def c1stores : Nat → StoredMessages := fun i =>
  if i = 0 then StoredMessages.empty.add 5 ⟨77, 3⟩ else StoredMessages.empty

/-- C1 is refuted on its "source cache" part: a message from group 1
quoting message 5 — which the source group's cache resolves — is relayed
to group 2 with no quote at all, because the handler resolves the quote on
the destination group's cache (the `stored` destructured at line 109 is
the destination's), which here is empty. -/
theorem c1_counterexample :
    (relayEvent 1000 c1groups c1stores 1 3 [Segment.Source 10, Segment.Quote 5]
        (fun _ _ _ => some 100)).attempts =
      [(2, [Segment.Source 10], none)] ∧
    (c1stores 0).translate 5 = some ⟨77, 3⟩ ∧
    (c1stores 1).translate 5 = none := by
  refine ⟨?_, by decide, by decide⟩
  decide

/-- C1 (amended): for every destination group the rewriter removes every
quote segment from the outbound chain and resolves the quote by `translate`
on the cache it is given — which the handler instantiates with the
DESTINATION group's Identity Cache, not the source's; when several quote
segments resolve, the last resolved one wins, and a quote id that fails to
resolve is dropped silently, keeping the previously resolved quote or its
absence. -/
theorem c1_amended_quote_resolution (stored : StoredMessages) (qq : Nat)
    (members : MapS) (om : Option MapS) (all : List MapS)
    (chain : List Segment) :
    (∀ seg ∈ (processChain stored qq members om all chain).1,
      seg.isQuoteSeg = false) ∧
    ((processChain stored qq members om all chain).2 = resolveQuotes stored chain) ∧
    (∀ l1 mId v l2, chain = l1 ++ Segment.Quote mId :: l2 →
      stored.translate mId = some v →
      (∀ mId', Segment.Quote mId' ∈ l2 → stored.translate mId' = none) →
      (processChain stored qq members om all chain).2 = some v) ∧
    (∀ l1 mId l2, chain = l1 ++ Segment.Quote mId :: l2 →
      stored.translate mId = none →
      (processChain stored qq members om all chain).2 =
        (processChain stored qq members om all (l1 ++ l2)).2) ∧
    (∀ groups fromGroup src (stores : Nat → StoredMessages),
      (enumerate 0 groups).find? (fun p => p.2.gid == fromGroup) = some src →
      ∀ ig ∈ destinations groups fromGroup,
        (destAttempt qq stores src.2.members (groups.map (·.members)) chain ig).2.2 =
          (resolveQuotes (stores ig.1) chain).map (·.id)) := by
  have hsnd : (processChain stored qq members om all chain).2 =
      resolveQuotes stored chain := by
    simp only [processChain]
    exact filterChain_snd stored qq chain none 0
  refine ⟨?_, hsnd, ?_, ?_, ?_⟩
  · intro seg hseg
    simp only [processChain, List.mem_map] at hseg
    obtain ⟨pre, hpre, hmap⟩ := hseg
    rw [← hmap]
    exact mapSegment_not_quote _ _ _ _ _ _
      (filterChain_kept_not_quote stored qq chain none 0 pre hpre)
  · intro l1 mId v l2 hchain htr hunres
    rw [hsnd, hchain]
    unfold resolveQuotes
    rw [resolveQuotesFrom_append]
    simp only [resolveQuotesFrom, htr, Option.some_orElse]
    exact resolveQuotesFrom_unresolved stored l2 hunres (some v)
  · intro l1 mId l2 hchain htr
    have hsnd2 : (processChain stored qq members om all (l1 ++ l2)).2 =
        resolveQuotes stored (l1 ++ l2) := by
      simp only [processChain]
      exact filterChain_snd stored qq (l1 ++ l2) none 0
    rw [hsnd, hsnd2, hchain]
    unfold resolveQuotes
    rw [resolveQuotesFrom_append, resolveQuotesFrom_append]
    simp only [resolveQuotesFrom, htr, Option.none_orElse]
    rfl
  · intro groups fromGroup src stores hfind ig hig
    simp only [destAttempt]
    congr 1
    simp only [processChain]
    exact filterChain_snd (stores ig.1) qq chain none 0

/-- The cache used by the `c1_amended_quote_resolution` witness: message 1
resolves, message 2 does not. -/
def c1wstored : StoredMessages := StoredMessages.empty.add 1 ⟨50, 9⟩

/-- Closed instance of `c1_amended_quote_resolution`: with two quote
segments of which only the first resolves, the rewriter keeps the resolved
quote (the failing one is dropped silently). -/
theorem c1_amended_quote_resolution_witness :
    c1wstored.translate 1 = some ⟨50, 9⟩ ∧
    (processChain c1wstored 99 [] (some []) []
      [Segment.Quote 1, Segment.Quote 2]).2 = some ⟨50, 9⟩ := by
  refine ⟨by decide, ?_⟩
  refine (c1_amended_quote_resolution c1wstored 99 [] (some []) []
    [Segment.Quote 1, Segment.Quote 2]).2.2.1 [] 1 ⟨50, 9⟩ [Segment.Quote 2]
    rfl (by decide) ?_
  intro mId' hm
  simp only [List.mem_singleton, Segment.Quote.injEq] at hm
  subst hm
  decide

/-! ### C4 — self-mention suppression -/

/-- Cache for the second part of the C4 counterexample: message 5
resolves to author 7. -/
def c4stored : StoredMessages := StoredMessages.empty.add 5 ⟨55, 7⟩

/-- C4 is refuted twice over.  First: with no quote resolved, a
self-mention (target = qq = 99) is NOT dropped — it passes the filter and
is forwarded as the plain text `@bot`.  Second: when a self-mention
precedes the quote segment in the chain, the suppression (which consults
the quote resolved so far) does not apply to it, so two self-mentions
survive and both are forwarded as live mentions of the quoted author. -/
theorem c4_counterexample :
    (processChain StoredMessages.empty 99 [] (some []) []
        [Segment.At 99 "bot"]).1 = [Segment.Plain "@bot"] ∧
    (processChain c4stored 99 [(7, "Bob")] (some []) []
        [Segment.At 99 "x", Segment.Quote 5, Segment.At 99 "y"]).1 =
      [Segment.At 7 "x", Segment.At 7 "y"] := by
  constructor
  · decide
  · decide

/-- C4 (amended): self-mention suppression consults the quote resolved so
far during the scan.  Self-mentions scanned after the first resolving
quote segment are kept at most once (the first one); self-mentions scanned
while no quote has yet resolved always pass the filter; and when no quote
resolves at all, every segment except quotes is kept and every at-mention
— self-mentions included — is forwarded as plain text (never dropped,
never live). -/
theorem c4_amended_self_mention (stored : StoredMessages) (qq : Nat)
    (members : MapS) (om : Option MapS) (all : List MapS) :
    (∀ l1 q0id st l2,
      (∀ id', Segment.Quote id' ∈ l1 → stored.translate id' = none) →
      stored.translate q0id = some st →
      (filterChain stored qq (l1 ++ Segment.Quote q0id :: l2) none 0).1.countP
          (Segment.isAtOf qq) =
        l1.countP (Segment.isAtOf qq) + min (l2.countP (Segment.isAtOf qq)) 1) ∧
    (∀ chain,
      (∀ id', Segment.Quote id' ∈ chain → stored.translate id' = none) →
      (filterChain stored qq chain none 0 =
        (chain.filter (fun s => !s.isQuoteSeg), none)) ∧
      ((processChain stored qq members om all chain).1 =
        (chain.filter (fun s => !s.isQuoteSeg)).map
          (mapSegment qq none members om all)) ∧
      (∀ seg ∈ (processChain stored qq members om all chain).1,
        seg.isAtSeg = false)) ∧
    (∀ target display,
      mapSegment qq none members om all (Segment.At target display) =
        Segment.Plain ("@" ++ ((lookupName
          ((match om with | some o => [members, o] | none => [members]) ++ all)
          (if target == qq then qq else target)).getD display))) := by
  have hcount : ∀ l : List Segment,
      (l.filter (fun s => !s.isQuoteSeg)).countP (Segment.isAtOf qq) =
        l.countP (Segment.isAtOf qq) := by
    intro l
    induction l with
    | nil => rfl
    | cons s rest ih =>
      cases s with
      | At t d =>
        have h1 : (!(Segment.At t d).isQuoteSeg) = true := rfl
        rw [List.filter_cons, h1]
        simp only [if_true]
        rw [List.countP_cons, List.countP_cons, ih]
      | Quote id =>
        have h1 : (!(Segment.Quote id).isQuoteSeg) = false := rfl
        rw [List.filter_cons, h1]
        simp only [Bool.false_eq_true, if_false]
        rw [ih, List.countP_cons]
        have h2 : Segment.isAtOf qq (Segment.Quote id) = false := rfl
        rw [h2]
        simp
      | Source id =>
        have h1 : (!(Segment.Source id).isQuoteSeg) = true := rfl
        rw [List.filter_cons, h1]
        simp only [if_true]
        rw [List.countP_cons, List.countP_cons, ih]
      | Plain t =>
        have h1 : (!(Segment.Plain t).isQuoteSeg) = true := rfl
        rw [List.filter_cons, h1]
        simp only [if_true]
        rw [List.countP_cons, List.countP_cons, ih]
      | Other k =>
        have h1 : (!(Segment.Other k).isQuoteSeg) = true := rfl
        rw [List.filter_cons, h1]
        simp only [if_true]
        rw [List.countP_cons, List.countP_cons, ih]
  refine ⟨?_, ?_, fun target display => mapSegment_none_at_eq qq members om all target display⟩
  · intro l1 q0id st l2 hl1 htr
    rw [filterChain_unresolved_append stored qq l1 hl1 (Segment.Quote q0id :: l2) 0]
    have hq : filterChain stored qq (Segment.Quote q0id :: l2) none 0 =
        filterChain stored qq l2 (some st) 0 := by
      simp only [filterChain, htr]
      rfl
    rw [hq]
    simp only [List.countP_append]
    rw [hcount l1]
    have := (filterChain_selfAt_of_some stored qq l2 (some st) rfl).1
    rw [this]
  · intro chain hun
    have hfc : filterChain stored qq chain none 0 =
        (chain.filter (fun s => !s.isQuoteSeg), none) := by
      have := filterChain_unresolved_append stored qq chain hun [] 0
      simpa [filterChain] using this
    have hout : (processChain stored qq members om all chain).1 =
        (chain.filter (fun s => !s.isQuoteSeg)).map
          (mapSegment qq none members om all) := by
      simp only [processChain, hfc]
    refine ⟨hfc, hout, ?_⟩
    intro seg hseg
    rw [hout] at hseg
    obtain ⟨pre, hpre, hmap⟩ := List.mem_map.mp hseg
    rw [← hmap]
    exact mapSegment_none_not_at qq members om all pre (Or.inr trivial)

/-- Cache for the `c4_amended_self_mention` witness: message 6 resolves. -/
def c4wstored : StoredMessages := StoredMessages.empty.add 6 ⟨60, 8⟩

/-- Closed instance of `c4_amended_self_mention`: one self-mention before
the resolving quote and two after it; the filter keeps the one before and
the first one after. -/
theorem c4_amended_self_mention_witness :
    c4wstored.translate 6 = some ⟨60, 8⟩ ∧
    (filterChain c4wstored 5
        ([Segment.At 5 "a"] ++ Segment.Quote 6 ::
          [Segment.At 5 "b", Segment.At 5 "c"]) none 0).1.countP
        (Segment.isAtOf 5) =
      [Segment.At 5 "a"].countP (Segment.isAtOf 5) +
        min ([Segment.At 5 "b", Segment.At 5 "c"].countP (Segment.isAtOf 5)) 1 := by
  refine ⟨by decide, ?_⟩
  refine (c4_amended_self_mention c4wstored 5 [] (some []) []).1
    [Segment.At 5 "a"] 6 ⟨60, 8⟩ [Segment.At 5 "b", Segment.At 5 "c"] ?_ (by decide)
  intro id' h
  simp at h

/-! ### C3 — mention rewrite -/

/-- C3: the fate of every at-mention in the rewritten chain for one
destination.  With no resolved quote every at-mention (a self-mention is
first retargeted to `qq` itself) becomes plain text; with a resolved quote
of author `a ≠ 0`, a self-mention is retargeted to `a`, and the (possibly
retargeted) mention stays a live mention exactly when its target equals
`a` AND is present in the destination's member snapshot — otherwise it
becomes the plain text `@name`, where the name is searched in the
destination's snapshot, then the source's, then every other configured
group's, falling back to the mention's embedded display text. -/
theorem c3_mention_rewrite (qq : Nat) (members srcM : MapS) (all : List MapS) :
    (∀ target display,
      mapSegment qq none members (some srcM) all (Segment.At target display) =
        Segment.Plain ("@" ++ ((lookupName ([members, srcM] ++
            all.filter (fun mm => !(mm == members || mm == srcM)))
          (if target == qq then qq else target)).getD display))) ∧
    (∀ st : StoredMessage, st.author ≠ 0 → ∀ target display,
      (((if target == qq then st.author else target) == st.author)
          && mhas members (if target == qq then st.author else target)) = true →
      mapSegment qq (some st) members (some srcM) all (Segment.At target display) =
        Segment.At (if target == qq then st.author else target) display) ∧
    (∀ st : StoredMessage, st.author ≠ 0 → ∀ target display,
      (((if target == qq then st.author else target) == st.author)
          && mhas members (if target == qq then st.author else target)) = false →
      mapSegment qq (some st) members (some srcM) all (Segment.At target display) =
        Segment.Plain ("@" ++ ((lookupName ([members, srcM] ++
            all.filter (fun mm => !(mm == members || mm == srcM)))
          (if target == qq then st.author else target)).getD display))) := by
  refine ⟨?_, ?_, ?_⟩
  · intro target display
    rw [mapSegment_none_at_eq]
    rw [← lookupName_spec_order]
  · intro st hne target display hcond
    simp only [mapSegment, jsOrNat, Option.map_some', if_neg hne]
    have hnot : (!((if target == qq then st.author else target) == st.author) ||
        !(mhas members (if target == qq then st.author else target))) = false := by
      rw [← Bool.not_and, hcond]
      rfl
    rw [hnot]
    simp
  · intro st hne target display hcond
    simp only [mapSegment, jsOrNat, Option.map_some', if_neg hne]
    have hnot : (!((if target == qq then st.author else target) == st.author) ||
        !(mhas members (if target == qq then st.author else target))) = true := by
      rw [← Bool.not_and, hcond]
      rfl
    rw [hnot]
    rw [if_pos rfl]
    rw [← lookupName_spec_order]

/-- Closed instance of `c3_mention_rewrite`: a self-mention with a
resolved quote of author 7, who is in the destination group, becomes a
live mention of 7; a mention of an absent user 4 becomes plain text with
the name found in the source group's snapshot. -/
theorem c3_mention_rewrite_witness :
    (7 : Nat) ≠ 0 ∧
    mapSegment 99 (some ⟨5, 7⟩) [(7, "Bob")] (some []) []
        (Segment.At 99 "x") = Segment.At 7 "x" ∧
    mapSegment 99 (some ⟨5, 7⟩) [(7, "Bob")] (some [(4, "Ann")]) []
        (Segment.At 4 "fallback") = Segment.Plain "@Ann" := by
  refine ⟨by decide, ?_, ?_⟩
  · exact (c3_mention_rewrite 99 [(7, "Bob")] [] []).2.1 ⟨5, 7⟩ (by decide)
      99 "x" (by decide)
  · exact (c3_mention_rewrite 99 [(7, "Bob")] [(4, "Ann")] []).2.2 ⟨5, 7⟩
      (by decide) 4 "fallback" (by decide)

/-! ### C2 — mapping recording -/

/-- All entries of a destination's recording batch carry the same value:
`{author, id: own sent id}`. -/
theorem recordBatch_const (results : List (Nat × Nat)) (i s author m : Nat) :
    ∀ p ∈ (((results.filter (fun o => o.2 != i)).map
        (fun o => (o.1, (⟨s, author⟩ : StoredMessage)))) ++
      [(m, (⟨s, author⟩ : StoredMessage))]),
      p.2 = (⟨s, author⟩ : StoredMessage) := by
  intro p hp
  rcases List.mem_append.mp hp with hp | hp
  · obtain ⟨o, ho, hpo⟩ := List.mem_map.mp hp
    rw [← hpo]
  · simp only [List.mem_singleton] at hp
    rw [hp]

/-- Initial stores of the C2 counterexample and witness: all empty. -/
def c2stores : Nat → StoredMessages := fun _ => StoredMessages.empty

/-- C2 is refuted on the pair-mapping value: with successful targets
`(sentId 100, index 1)` and `(sentId 200, index 2)`, target 1's cache maps
the other target's sent id 200 to `{author 7, id 100}` — the id recorded
is target 1's OWN sent id, not `thatOtherSentId = 200` as the claim
states. -/
theorem c2_counterexample :
    (recordMappings 7 10 0 [(100, 1), (200, 2)] c2stores 1).translate 200 =
      some ⟨100, 7⟩ ∧
    some (⟨100, 7⟩ : StoredMessage) ≠ some (⟨200, 7⟩ : StoredMessage) := by
  constructor
  · decide
  · decide

/-- C2 (amended): after recording the successful results of one fan-out of
an inbound message with author `a` and id `m`: for every pair of distinct
successful targets, each target's cache maps the OTHER target's sent id to
`{author: a, id: the recording target's own sent id}` (this corrects the
claim's `thatOtherSentId`); each target's cache maps `m` to
`{author: a, id: own sent id}`; the source cache maps every successful
sent id to `{author: a, id: m}`; and the source cache gains no entry keyed
by `m`. -/
theorem c2_amended_mapping_recording (author m srcIdx : Nat)
    (results : List (Nat × Nat)) (stores : Nat → StoredMessages)
    (hwf : ∀ i, StoredMessages.WFI (stores i))
    (hlen : results.length ≤ threshold)
    (hnd : (results.map Prod.snd).Nodup)
    (hsrc : ∀ r ∈ results, r.2 ≠ srcIdx)
    (hm : ∀ r ∈ results, r.1 ≠ m) :
    (∀ s i s' j, (s, i) ∈ results → (s', j) ∈ results → j ≠ i →
      (recordMappings author m srcIdx results stores i).translate s' =
        some ⟨s, author⟩) ∧
    (∀ s i, (s, i) ∈ results →
      (recordMappings author m srcIdx results stores i).translate m =
        some ⟨s, author⟩) ∧
    (∀ s i, (s, i) ∈ results →
      (recordMappings author m srcIdx results stores srcIdx).translate s =
        some ⟨m, author⟩) ∧
    (∀ v, (recordMappings author m srcIdx results stores srcIdx).translate m =
        some v → (stores srcIdx).translate m = some v) := by
  have hsrcfold : recordMappings author m srcIdx results stores srcIdx =
      (stores srcIdx).addAll
        (results.map (fun r => (r.1, (⟨m, author⟩ : StoredMessage)))) :=
    recordMappings_at_src author m srcIdx results results stores hsrc
  have hsrclen : (results.map (fun r => (r.1, (⟨m, author⟩ : StoredMessage)))).length
      ≤ threshold + 1 := by
    rw [List.length_map]
    omega
  refine ⟨?_, ?_, ?_, ?_⟩
  · intro s i s' j hsi hs'j hji
    rw [recordMappings_at_dest author m srcIdx stores hnd hsrc hsi]
    have hblen : (((results.filter (fun o => o.2 != i)).map
        (fun o => (o.1, (⟨s, author⟩ : StoredMessage)))) ++
          [(m, (⟨s, author⟩ : StoredMessage))]).length ≤ threshold + 1 := by
      rw [List.length_append, List.length_map, List.length_singleton]
      have := List.length_filter_le (fun o => o.2 != i) results
      omega
    have hmemk : s' ∈ (((results.filter (fun o => o.2 != i)).map
        (fun o => (o.1, (⟨s, author⟩ : StoredMessage)))) ++
          [(m, (⟨s, author⟩ : StoredMessage))]).map Prod.fst := by
      rw [List.map_append, List.mem_append]
      left
      rw [List.map_map]
      refine List.mem_map.mpr ⟨(s', j), ?_, rfl⟩
      rw [List.mem_filter]
      exact ⟨hs'j, by simp [hji]⟩
    obtain ⟨v, hv⟩ := keyLast_of_mem_keys hmemk
    have hvval : v = ⟨s, author⟩ := by
      have := recordBatch_const results i s author m _ (keyLast_mem hv)
      exact this
    subst hvval
    exact (StoredMessages.addAll_translate (hwf i) hblen).2 s' _ hv
  · intro s i hsi
    rw [recordMappings_at_dest author m srcIdx stores hnd hsrc hsi]
    have hblen : (((results.filter (fun o => o.2 != i)).map
        (fun o => (o.1, (⟨s, author⟩ : StoredMessage)))) ++
          [(m, (⟨s, author⟩ : StoredMessage))]).length ≤ threshold + 1 := by
      rw [List.length_append, List.length_map, List.length_singleton]
      have := List.length_filter_le (fun o => o.2 != i) results
      omega
    have hmemk : m ∈ (((results.filter (fun o => o.2 != i)).map
        (fun o => (o.1, (⟨s, author⟩ : StoredMessage)))) ++
          [(m, (⟨s, author⟩ : StoredMessage))]).map Prod.fst := by
      rw [List.map_append, List.mem_append]
      right
      simp
    obtain ⟨v, hv⟩ := keyLast_of_mem_keys hmemk
    have hvval : v = ⟨s, author⟩ :=
      recordBatch_const results i s author m _ (keyLast_mem hv)
    subst hvval
    exact (StoredMessages.addAll_translate (hwf i) hblen).2 m _ hv
  · intro s i hsi
    rw [hsrcfold]
    have hmemk : s ∈ (results.map
        (fun r => (r.1, (⟨m, author⟩ : StoredMessage)))).map Prod.fst := by
      rw [List.map_map]
      exact List.mem_map.mpr ⟨(s, i), hsi, rfl⟩
    obtain ⟨v, hv⟩ := keyLast_of_mem_keys hmemk
    have hvval : v = ⟨m, author⟩ := by
      have hmem := keyLast_mem hv
      obtain ⟨r, hr, hpr⟩ := List.mem_map.mp hmem
      have := congrArg Prod.snd hpr
      simpa using this.symm
    subst hvval
    exact (StoredMessages.addAll_translate (hwf srcIdx) hsrclen).2 s _ hv
  · intro v hv
    rw [hsrcfold] at hv
    refine StoredMessages.addAll_translate_of_not_mem (hwf srcIdx) ?_ hv
    intro hmemk
    rw [List.map_map] at hmemk
    obtain ⟨r, hr, hpr⟩ := List.mem_map.mp hmemk
    exact hm r hr hpr

/-- Closed instance of `c2_amended_mapping_recording` on two successful
targets: target 1's cache maps the other sent id 200 and the original id
10 to its own copy `{author 7, id 100}`, and the source cache maps 100
back to `{author 7, id 10}`. -/
theorem c2_amended_mapping_recording_witness :
    ((2 : Nat) ≤ threshold ∧ ([(100, 1), (200, 2)].map Prod.snd).Nodup) ∧
    (recordMappings 7 10 0 [(100, 1), (200, 2)] c2stores 1).translate 200 =
      some ⟨100, 7⟩ ∧
    (recordMappings 7 10 0 [(100, 1), (200, 2)] c2stores 1).translate 10 =
      some ⟨100, 7⟩ ∧
    (recordMappings 7 10 0 [(100, 1), (200, 2)] c2stores 0).translate 100 =
      some ⟨10, 7⟩ := by
  have h := c2_amended_mapping_recording 7 10 0 [(100, 1), (200, 2)] c2stores
    (fun i => StoredMessages.wfi_empty) (by decide) (by decide) (by decide)
    (by decide)
  refine ⟨⟨by decide, by decide⟩, ?_, ?_, ?_⟩
  · exact h.1 100 1 200 2 (by decide) (by decide) (by decide)
  · exact h.2.1 100 1 (by decide)
  · exact h.2.2.1 100 1 (by decide)

/-! ### C8 — fan-out isolation -/

/-- Unfolding of the handler when the source group is configured. -/
theorem relayEvent_some (qq : Nat) (groups : List GroupInfo)
    (stores : Nat → StoredMessages) (fromGroup sender : Nat)
    (chain : List Segment)
    (send : Nat → List Segment → Option Nat → Option Nat)
    {src : Nat × GroupInfo}
    (hfind : (enumerate 0 groups).find? (fun p => p.2.gid == fromGroup) = some src) :
    relayEvent qq groups stores fromGroup sender chain send =
      ⟨(destinations groups fromGroup).map
          (destAttempt qq stores src.2.members (groups.map (·.members)) chain),
        (destinations groups fromGroup).filterMap (fun ig =>
          (sendOutcome send qq stores src.2.members (groups.map (·.members))
            chain ig).map (fun sid => (sid, ig.1))),
        recordMappings sender (headMessageId chain) src.1
          ((destinations groups fromGroup).filterMap (fun ig =>
            (sendOutcome send qq stores src.2.members (groups.map (·.members))
              chain ig).map (fun sid => (sid, ig.1)))) stores⟩ := by
  simp only [relayEvent, hfind]

/-- Two entries of the destination list with the same index are the same
destination (indices come from `enumerate`). -/
theorem destinations_index_unique {groups : List GroupInfo} {fromGroup : Nat}
    {ig ig' : Nat × GroupInfo} (h : ig ∈ destinations groups fromGroup)
    (h' : ig' ∈ destinations groups fromGroup) (heq : ig'.1 = ig.1) :
    ig' = ig := by
  have h1 : ig ∈ enumerate 0 groups := (List.mem_filter.mp h).1
  have h2 : ig' ∈ enumerate 0 groups := (List.mem_filter.mp h').1
  have e1 : (ig.1, ig.2) ∈ enumerate 0 groups := by
    simpa using h1
  have e2 : (ig.1, ig'.2) ∈ enumerate 0 groups := by
    rw [← heq]
    simpa using h2
  have := enumerate_unique groups 0 ig.1 ig'.2 ig.2 e2 e1
  have hpair : ig' = (ig'.1, ig'.2) := rfl
  rw [hpair, heq, this]

/-- C8: the failure of the send to one destination group is isolated.  The
attempt list — which destination is sent what — does not depend on any
send outcome at all, so one destination's failure cannot block, change or
retry the sends to the others; a destination whose send fails contributes
no result, a destination whose send succeeds contributes exactly its
result; and the mapping-recording step runs on exactly the successful
results, whatever the failures. -/
theorem c8_fanout_isolation (qq : Nat) (groups : List GroupInfo)
    (stores : Nat → StoredMessages) (fromGroup sender : Nat)
    (chain : List Segment)
    (send send' : Nat → List Segment → Option Nat → Option Nat) :
    ((relayEvent qq groups stores fromGroup sender chain send).attempts =
      (relayEvent qq groups stores fromGroup sender chain send').attempts) ∧
    (∀ src, (enumerate 0 groups).find? (fun p => p.2.gid == fromGroup) = some src →
      ((relayEvent qq groups stores fromGroup sender chain send).attempts =
        (destinations groups fromGroup).map
          (destAttempt qq stores src.2.members (groups.map (·.members)) chain)) ∧
      ((relayEvent qq groups stores fromGroup sender chain send).stores =
        recordMappings sender (headMessageId chain) src.1
          (relayEvent qq groups stores fromGroup sender chain send).results
          stores) ∧
      (∀ ig ∈ destinations groups fromGroup,
        (sendOutcome send qq stores src.2.members (groups.map (·.members))
            chain ig = none →
          ∀ sId, (sId, ig.1) ∉
            (relayEvent qq groups stores fromGroup sender chain send).results) ∧
        (∀ sId, sendOutcome send qq stores src.2.members (groups.map (·.members))
            chain ig = some sId →
          (sId, ig.1) ∈
            (relayEvent qq groups stores fromGroup sender chain send).results))) := by
  constructor
  · cases hfind : (enumerate 0 groups).find? (fun p => p.2.gid == fromGroup) with
    | none => simp only [relayEvent, hfind]
    | some src =>
      rw [relayEvent_some qq groups stores fromGroup sender chain send hfind,
        relayEvent_some qq groups stores fromGroup sender chain send' hfind]
  · intro src hfind
    rw [relayEvent_some qq groups stores fromGroup sender chain send hfind]
    refine ⟨rfl, rfl, ?_⟩
    intro ig hig
    constructor
    · intro hnone sId hmem
      simp only [List.mem_filterMap] at hmem
      obtain ⟨ig', hig', hout⟩ := hmem
      simp only [Option.map_eq_some'] at hout
      obtain ⟨sid', hsid', hpair⟩ := hout
      have hidx : ig'.1 = ig.1 := congrArg Prod.snd hpair
      have : ig' = ig := destinations_index_unique hig hig' hidx
      rw [this, hnone] at hsid'
      exact Option.noConfusion hsid'
    · intro sId hsome
      simp only [List.mem_filterMap]
      exact ⟨ig, hig, by rw [hsome]; rfl⟩

/-- Concrete configuration for the C8 witness: three groups, the send to
group 2 fails, the send to group 3 succeeds. -/
def c8groups : List GroupInfo := [⟨1, []⟩, ⟨2, []⟩, ⟨3, []⟩]

/-- All caches start empty. -/
def c8stores : Nat → StoredMessages := fun _ => StoredMessages.empty

/-- The inbound chain of the C8 witness. -/
def c8chain : List Segment := [Segment.Source 10, Segment.Plain "hi"]

/-- The send oracle of the C8 witness: group 2's send throws, every other
send succeeds with id `100 + group`. -/
def c8send : Nat → List Segment → Option Nat → Option Nat :=
  fun g _ _ => if g = 2 then none else some (100 + g)

/-- Closed instance of `c8_fanout_isolation`: group 2's send fails, group
3 still receives the message — its successful result `(103, index 2)` is
collected. -/
theorem c8_fanout_isolation_witness :
    ((enumerate 0 c8groups).find? (fun p => p.2.gid == 1) =
        some (0, (⟨1, []⟩ : GroupInfo))) ∧
    ((2, (⟨3, []⟩ : GroupInfo)) ∈ destinations c8groups 1) ∧
    (sendOutcome c8send 99 c8stores [] (c8groups.map (·.members)) c8chain
        (2, ⟨3, []⟩) = some 103) ∧
    (sendOutcome c8send 99 c8stores [] (c8groups.map (·.members)) c8chain
        (1, ⟨2, []⟩) = none) ∧
    ((103, 2) ∈ (relayEvent 99 c8groups c8stores 1 5 c8chain c8send).results) := by
  refine ⟨by decide, by decide, by decide, by decide, ?_⟩
  exact (((c8_fanout_isolation 99 c8groups c8stores 1 5 c8chain c8send c8send).2
    (0, ⟨1, []⟩) (by decide)).2.2 (2, ⟨3, []⟩) (by decide)).2 103 (by decide)

end Qwq
